import Mathlib

/-!
# PondLibrary firmware: pH probe driver, on-board LED helper, LCD printer, RF code table

A shallow embedding of

* `libraries/PondLibrary/atlas_gravity_no_eeprom/ph_grav_no_eeprom.{h,cpp}` (class `Gravity_pH`),
* `libraries/PondLibrary/atlas_gravity_no_eeprom/base_grav_no_eeprom.h` (`volt_avg_len`),
* `libraries/PondLibrary/on_board_led.{h,cpp}` (`setOnBoardLEDColor`, `setLedColorForCode` and
  the two fade functions),
* `libraries/PondLibrary/lcd_display.{h,cpp}` (`lcdPrettyPrint`),
* `ESP32-RF-Transmitter/main/config.h` (the RF code table).

The C++ types `float` and `double` are embedded as IEEE 754 binary floating point with
round-to-nearest-even, infinities, NaN and signed zeros (`Flt`).  A finite value is stored as a
sign and a magnitude counted in units of the smallest subnormal of its format, so every
operation is an exact computation on natural numbers followed by one rounding.

The preprocessor chain of `read_voltage` becomes a parameter `Board`, which also fixes the
width of `double`.  The hardware is embedded through what the code exchanges with it: the
values returned by the successive calls of `analogRead` are a function of the call number, and
the calls of `WiFiDrv::analogWrite` are returned as a list of the values it receives in its
`uint8_t` parameter, as are the calls of `delay` and of
`lcd.print` and `lcd.clear`.  The time is a function of the call number of `millis`, and the
two busy-wait loops of `lcdPrettyPrint` run on fuel.  Methods that assign members return the
object after the call.
-/

namespace Firmware

/-! ## IEEE 754 binary floating point -/

/-- An IEEE 754 binary format: `prec` significand bits (hidden bit included) and the largest
exponent `emax`; the smallest normal exponent is `1 - emax`. -/
structure Fmt where
  prec : Nat
  emax : Nat
  deriving DecidableEq, Repr

/-- The format of C++ `float`. -/
def binary32 : Fmt := ⟨24, 127⟩

/-- The format of C++ `double` where it is 64 bits wide. -/
def binary64 : Fmt := ⟨53, 1023⟩

/-- The smallest positive subnormal of the format is `2 ^ (-f.scale)`; it is the unit in which
magnitudes are counted (149 for binary32, 1074 for binary64). -/
def Fmt.scale (f : Fmt) : Nat := f.emax + f.prec - 2

/-- The largest finite magnitude, in units: `(2^prec - 1) * 2^(emax - emin)`. -/
def Fmt.maxMag (f : Fmt) : Nat := (2 ^ f.prec - 1) * 2 ^ (2 * f.emax - 1)

/-- A floating-point datum of format `f`.  `fin neg mag` is the finite number
`(-1)^neg * mag * 2^(-f.scale)`; `fin true 0` is the negative zero. -/
inductive Flt (f : Fmt) where
  | nan : Flt f
  | inf (neg : Bool) : Flt f
  | fin (neg : Bool) (mag : Nat) : Flt f
  deriving DecidableEq, Repr

/-- The nearest integer to the fraction `a / b`, ties going to the even one. -/
def rne (a b : Nat) : Nat :=
  let q := a / b
  let r := a % b
  if 2 * r < b then q
  else if b < 2 * r then q + 1
  else if q % 2 = 0 then q else q + 1

/-- Count the binary digits after the leading one of `n`, at most `fuel` steps: strip 256
digits at a time while there are that many, then 16 at a time, then one at a time. -/
def ilog2Aux : Nat → Nat → Nat
  | 0, _ => 0
  | fuel + 1, n =>
    if n < 2 then 0
    else if n < 2 ^ 16 then ilog2Aux fuel (n / 2) + 1
    else if n < 2 ^ 256 then ilog2Aux fuel (n / 2 ^ 16) + 16
    else ilog2Aux fuel (n / 2 ^ 256) + 256

/-- The position of the leading binary digit of `n` (and 0 for `n = 0`). -/
def ilog2 (n : Nat) : Nat := ilog2Aux n n

/-- The exponent of the spacing of representable magnitudes around a magnitude whose integer
part is `q`: magnitudes below `2^prec` are spaced by one unit, and each further binade doubles
the spacing. -/
def Fmt.shift (f : Fmt) (q : Nat) : Nat := ilog2 q - (f.prec - 1)

/-- The magnitude `a / b` (in units) rounded to the nearest magnitude with `prec` significant
bits, ties to even, before the overflow test. -/
def Fmt.roundMag (f : Fmt) (a b : Nat) : Nat :=
  let k := f.shift (a / b)
  rne a (b * 2 ^ k) * 2 ^ k

/-- Round the signed magnitude `a / b` (in units) into the format: a result beyond the largest
finite magnitude becomes an infinity. -/
def Fmt.round (f : Fmt) (neg : Bool) (a b : Nat) : Flt f :=
  let m := f.roundMag a b
  if m ≤ f.maxMag then .fin neg m else .inf neg

/-- A magnitude (in units) is a value of the format when rounding leaves it alone and it does
not exceed the largest finite magnitude. -/
def Fmt.repMag (f : Fmt) (m : Nat) : Bool :=
  decide (m % 2 ^ f.shift m = 0) && decide (m ≤ f.maxMag)

namespace Flt

variable {f : Fmt}

/-- The signed magnitude of a finite datum, in units. -/
def sval (neg : Bool) (mag : Nat) : Int := if neg then -(mag : Int) else (mag : Int)

/-- A datum the hardware can hold: NaN, an infinity, or a finite value of the format. -/
def isRep : Flt f → Bool
  | nan => true
  | inf _ => true
  | fin _ m => f.repMag m

/-- Neither NaN nor an infinity. -/
def isFinite : Flt f → Bool
  | fin _ _ => true
  | _ => false

/-- Unary minus. -/
def neg : Flt f → Flt f
  | nan => nan
  | inf s => inf (!s)
  | fin s m => fin (!s) m

/-- Addition, correctly rounded. -/
def add : Flt f → Flt f → Flt f
  | nan, _ => nan
  | _, nan => nan
  | inf s, inf t => if s = t then inf s else nan
  | inf s, fin _ _ => inf s
  | fin _ _, inf t => inf t
  | fin s m, fin t n =>
    let z := sval s m + sval t n
    if z = 0 then fin (s && t) 0 else f.round (decide (z < 0)) z.natAbs 1

/-- Subtraction, correctly rounded. -/
def sub (x y : Flt f) : Flt f := add x (neg y)

/-- Multiplication, correctly rounded. -/
def mul : Flt f → Flt f → Flt f
  | nan, _ => nan
  | _, nan => nan
  | inf s, inf t => inf (xor s t)
  | inf s, fin t n => if n = 0 then nan else inf (xor s t)
  | fin s m, inf t => if m = 0 then nan else inf (xor s t)
  | fin s m, fin t n => f.round (xor s t) (m * n) (2 ^ f.scale)

/-- Division, correctly rounded; a finite non-zero value divided by a zero is an infinity. -/
def div : Flt f → Flt f → Flt f
  | nan, _ => nan
  | _, nan => nan
  | inf _, inf _ => nan
  | inf s, fin t _ => inf (xor s t)
  | fin s _, inf t => fin (xor s t) 0
  | fin s m, fin t n =>
    if n = 0 then (if m = 0 then nan else inf (xor s t))
    else f.round (xor s t) (m * 2 ^ f.scale) n

instance : Neg (Flt f) := ⟨neg⟩
instance : Add (Flt f) := ⟨add⟩
instance : Sub (Flt f) := ⟨sub⟩
instance : Mul (Flt f) := ⟨mul⟩
instance : Div (Flt f) := ⟨div⟩

/-- The C++ comparison `x < y`: false as soon as an operand is NaN, and the two zeros
compare equal. -/
def lt : Flt f → Flt f → Bool
  | nan, _ => false
  | _, nan => false
  | inf s, inf t => s && !t
  | inf s, fin _ _ => s
  | fin _ _, inf t => !t
  | fin s m, fin t n => decide (sval s m < sval t n)

/-- The C++ comparison `x <= y`. -/
def le : Flt f → Flt f → Bool
  | nan, _ => false
  | _, nan => false
  | inf s, inf t => s || !t
  | inf s, fin _ _ => s
  | fin _ _, inf t => !t
  | fin s m, fin t n => decide (sval s m ≤ sval t n)

/-- The C++ comparison `x > y`. -/
def gt (x y : Flt f) : Bool := lt y x

/-- The C++ comparison `x == y`. -/
def eq : Flt f → Flt f → Bool
  | nan, _ => false
  | _, nan => false
  | inf s, inf t => s == t
  | inf _, fin _ _ => false
  | fin _ _, inf _ => false
  | fin s m, fin t n => decide (sval s m = sval t n)

/-- Conversion of a C++ `int` to the format. -/
def ofInt (f : Fmt) (z : Int) : Flt f :=
  if z = 0 then fin false 0 else f.round (decide (z < 0)) (z.natAbs * 2 ^ f.scale) 1

/-- The value of the non-negative decimal fraction `num / den`, correctly rounded. -/
def ofFrac (f : Fmt) (num den : Nat) : Flt f :=
  f.round false (num * 2 ^ f.scale) den

/-- Conversion between formats (C++ `(double)x`, `(float)x`), correctly rounded. -/
def cast (g : Fmt) : Flt f → Flt g
  | nan => nan
  | inf s => inf s
  | fin s m => g.round s (m * 2 ^ g.scale) (2 ^ f.scale)

/-- The place of a datum in the order of the extended number line: a finite datum is its signed
magnitude, the infinities sit one unit beyond the largest finite magnitude. -/
def key : Flt f → Int
  | nan => 0
  | inf s => sval s (f.maxMag + 1)
  | fin s m => sval s m

/-- Not NaN, and not beyond the largest finite magnitude: the data on which `key` reflects the
comparisons.  Every result of an arithmetic operation that is not NaN is such a datum. -/
def good : Flt f → Prop
  | nan => False
  | inf _ => True
  | fin _ m => m ≤ f.maxMag

/-- A finite datum other than the two zeros. -/
def isNonzeroFinite : Flt f → Bool
  | fin _ m => decide (0 < m)
  | _ => false

/-- The sign bit is clear and the datum is not NaN. -/
def signPos : Flt f → Bool
  | nan => false
  | inf s => !s
  | fin s _ => !s

end Flt

/-- The datum is finite, with a clear sign bit, and its value lies between the whole numbers
`lo` and `hi`. -/
def Flt.inRange {f : Fmt} (x : Flt f) (lo hi : Nat) : Prop :=
  ∃ m, x = Flt.fin false m ∧ lo * 2 ^ f.scale ≤ m ∧ m ≤ hi * 2 ^ f.scale

/-- A format with at least the precision and the range of binary32, in which the whole
numbers below `2^24` are exact. -/
structure Fmt.Wide (f : Fmt) : Prop where
  prec_ge : 24 ≤ f.prec
  max_ge : 2 ^ 24 * 2 ^ f.scale ≤ f.maxMag

/-- C++ `float`. -/
abbrev F32 := Flt binary32

/-! ## Build targets -/

/-- The boards told apart by the preprocessor chain of `Gravity_pH::read_voltage`; `other` is
the final `#else`, for which the width of `double` is left open. -/
inductive Board where
  | ESP32
  | ARDUINO_SAMD_NANO_33_IOT
  | ARDUINO_AVR_UNO
  | ARDUINO_SAMD_MKRWIFI1010
  | other (wideDouble : Bool)
  deriving DecidableEq, Repr

/-- The format of C++ `double` on a board: 32 bits with avr-gcc, 64 bits on the ESP32 and
SAMD cores. -/
def Board.dbl : Board → Fmt
  | .ESP32 => binary64
  | .ARDUINO_SAMD_NANO_33_IOT => binary64
  | .ARDUINO_AVR_UNO => binary32
  | .ARDUINO_SAMD_MKRWIFI1010 => binary64
  | .other wide => if wide then binary64 else binary32

/-- C++ `double` on board `b`. -/
abbrev Dbl (b : Board) := Flt b.dbl

/-- A decimal literal such as `6.86` (written `lit b 686 100`): a `double` constant. -/
def lit (b : Board) (num den : Nat) : Dbl b := Flt.ofFrac b.dbl num den

/-- An `int` converted to `double`. -/
def intToDbl (b : Board) (z : Int) : Dbl b := Flt.ofInt b.dbl z

/-- An `int` converted to `float`. -/
def intToFloat (z : Int) : F32 := Flt.ofInt binary32 z

/-- Conversion `double` to `float`. -/
def toFloat {b : Board} (x : Dbl b) : F32 := Flt.cast binary32 x

/-- Conversion `float` to `double`. -/
def toDbl (b : Board) (x : F32) : Dbl b := Flt.cast b.dbl x

/-! ## `Gravity_pH` (ph_grav_no_eeprom.h, ph_grav_no_eeprom.cpp) -/

/-- `Gravity_Base::grav_type::GRAV_PH`. -/
def GRAV_PH : Nat := 1

/-- `Gravity_Base::volt_avg_len`. -/
def volt_avg_len : Nat := 1000

/-- The private `struct PH` of `Gravity_pH`. -/
structure PH where
  type : Nat
  mid_cal : F32
  low_cal : F32
  high_cal : F32
  mid_solution_ph : F32
  low_solution_ph : F32
  high_solution_ph : F32
  deriving DecidableEq, Repr

/-- An object of class `Gravity_pH`: the pin of `Gravity_Base` and the member `pH`. -/
structure Gravity_pH where
  pin : Nat
  pH : PH
  deriving DecidableEq, Repr

/-- The default member initialisers of `struct PH`, as compiled for board `b`. -/
def PH.init (b : Board) : PH where
  type := GRAV_PH
  mid_cal := intToFloat 1587
  low_cal := intToFloat 2081
  high_cal := intToFloat 1186
  mid_solution_ph := toFloat (lit b 686 100)
  low_solution_ph := toFloat (lit b 401 100)
  high_solution_ph := toFloat (lit b 918 100)

/-- The constructor `Gravity_pH::Gravity_pH(uint8_t pin)`. -/
def Gravity_pH.new (b : Board) (pin : Nat) : Gravity_pH := ⟨pin, PH.init b⟩

/-- The per-sample millivolt value that one pass of the loop of `read_voltage` adds, a
`double` expression of the raw sample `analogRead(this->pin)`; one case for each branch of the
preprocessor chain. -/
def sample_mV : (b : Board) → Int → Dbl b
  | .ESP32, raw =>
    intToDbl .ESP32 raw / lit .ESP32 4095 1 * lit .ESP32 3300 1 + intToDbl .ESP32 130
  | .ARDUINO_SAMD_NANO_33_IOT, raw =>
    intToDbl .ARDUINO_SAMD_NANO_33_IOT raw / lit .ARDUINO_SAMD_NANO_33_IOT 4095 1
      * lit .ARDUINO_SAMD_NANO_33_IOT 3300 1
  | .ARDUINO_AVR_UNO, raw =>
    intToDbl .ARDUINO_AVR_UNO raw / lit .ARDUINO_AVR_UNO 1024 1 * lit .ARDUINO_AVR_UNO 5000 1
  | .ARDUINO_SAMD_MKRWIFI1010, raw =>
    intToDbl .ARDUINO_SAMD_MKRWIFI1010 raw / lit .ARDUINO_SAMD_MKRWIFI1010 4095 1
      * lit .ARDUINO_SAMD_MKRWIFI1010 3300 1
  | .other w, raw =>
    intToDbl (.other w) raw / lit (.other w) 1024 1 * lit (.other w) 5000 1

/-- One pass of the averaging loop of `read_voltage`: `voltage_mV += <sample in mV>`, the
sum being formed in `double` and stored back into the `float` accumulator. -/
def read_voltage_step (b : Board) (voltage_mV : F32) (raw : Int) : F32 :=
  toFloat (toDbl b voltage_mV + sample_mV b raw)

/-- The method `Gravity_pH::read_voltage()`; `analogRead i` is what the `i`-th call of
`analogRead(this->pin)` returns. -/
def read_voltage (b : Board) (analogRead : Nat → Int) : F32 :=
  let voltage_mV := (List.range volt_avg_len).foldl
    (fun acc i => read_voltage_step b acc (analogRead i)) (intToFloat 0)
  voltage_mV / intToFloat volt_avg_len

/-- The method `Gravity_pH::read_ph(float voltage_mV)`. -/
def read_ph (self : Gravity_pH) (voltage_mV : F32) : F32 :=
  if Flt.gt voltage_mV self.pH.mid_cal then
    self.pH.mid_solution_ph
      - (self.pH.mid_solution_ph - self.pH.low_solution_ph)
          / (self.pH.low_cal - self.pH.mid_cal) * (voltage_mV - self.pH.mid_cal)
  else
    self.pH.mid_solution_ph
      - (self.pH.high_solution_ph - self.pH.mid_solution_ph)
          / (self.pH.mid_cal - self.pH.high_cal) * (voltage_mV - self.pH.mid_cal)

/-- The slope subexpression of the first branch of `read_ph` (voltages above `mid_cal`). -/
def slope_low (self : Gravity_pH) : F32 :=
  (self.pH.mid_solution_ph - self.pH.low_solution_ph) / (self.pH.low_cal - self.pH.mid_cal)

/-- The slope subexpression of the second branch of `read_ph` (voltages up to `mid_cal`). -/
def slope_high (self : Gravity_pH) : F32 :=
  (self.pH.high_solution_ph - self.pH.mid_solution_ph) / (self.pH.mid_cal - self.pH.high_cal)

/-- The method `Gravity_pH::calc_ph_from_formula(float voltage_mV)`: the value returned and
the object after the call. -/
def calc_ph_from_formula (b : Board) (self : Gravity_pH) (voltage_mV : F32) :
    F32 × Gravity_pH :=
  (toFloat ((-lit b 56548 10000) * toDbl b voltage_mV / intToDbl b 1000 + lit b 15509 1000),
   self)

/-- The method `Gravity_pH::cal_mid(float voltage_mV)`. -/
def cal_mid (self : Gravity_pH) (voltage_mV : F32) : Gravity_pH :=
  { self with pH := { self.pH with mid_cal := voltage_mV } }

/-- The method `Gravity_pH::cal_low(float voltage_mV)`. -/
def cal_low (self : Gravity_pH) (voltage_mV : F32) : Gravity_pH :=
  { self with pH := { self.pH with low_cal := voltage_mV } }

/-- The method `Gravity_pH::cal_high(float voltage_mV)`. -/
def cal_high (self : Gravity_pH) (voltage_mV : F32) : Gravity_pH :=
  { self with pH := { self.pH with high_cal := voltage_mV } }

/-- The method `Gravity_pH::cal_clear()`. -/
def cal_clear (self : Gravity_pH) : Gravity_pH :=
  { self with pH := { self.pH with
      mid_cal := intToFloat 1529, low_cal := intToFloat 2033, high_cal := intToFloat 1119 } }

/-- The resolution of the ADC in bits: `analogReadResolution(12)` on the SAMD boards, the
12-bit default of the ESP32, 10 bits on the UNO and in the default case. -/
def Board.adcBits : Board → Nat
  | .ESP32 => 12
  | .ARDUINO_SAMD_NANO_33_IOT => 12
  | .ARDUINO_AVR_UNO => 10
  | .ARDUINO_SAMD_MKRWIFI1010 => 12
  | .other _ => 10

/-- The smallest millivolt value a sample within the ADC range converts to. -/
def Board.mVmin : Board → Nat
  | .ESP32 => 130
  | _ => 0

/-- The largest millivolt value a sample within the ADC range converts to (a bound, for the
10-bit boards). -/
def Board.mVmax : Board → Nat
  | .ESP32 => 3430
  | .ARDUINO_SAMD_NANO_33_IOT => 3300
  | .ARDUINO_AVR_UNO => 5000
  | .ARDUINO_SAMD_MKRWIFI1010 => 3300
  | .other _ => 5000

/-- The reference pH values of the object are those its constructor gave it (the literals
6.86, 4.01 and 9.18 as `float`, the same on every board). -/
def hasSourceRefs (s : Gravity_pH) : Prop :=
  s.pH.mid_solution_ph = toFloat (lit .ESP32 686 100) ∧
  s.pH.low_solution_ph = toFloat (lit .ESP32 401 100) ∧
  s.pH.high_solution_ph = toFloat (lit .ESP32 918 100)

/-- The largest finite `float`, `FLT_MAX`. -/
def FLT_MAX : F32 := Flt.fin false binary32.maxMag

/-- The object after `cal_low(FLT_MAX)`, `cal_mid(-2^127)`, `cal_high(-FLT_MAX)` on a new
object: the voltages are ordered, and `low_cal - mid_cal` overflows. -/
def overflowExample : Gravity_pH :=
  cal_high (cal_mid (cal_low (Gravity_pH.new .ARDUINO_SAMD_MKRWIFI1010 0) FLT_MAX)
    (Flt.fin true (2 ^ 276))) (-FLT_MAX)

/-- The object after `cal_clear()` on a new object: the factory-reset calibration. -/
def factoryExample : Gravity_pH := cal_clear (Gravity_pH.new .ESP32 0)

/-- The object after `cal_mid(1186)` on a new object: `mid_cal` equals `high_cal`. -/
def midEqHighExample : Gravity_pH :=
  cal_mid (Gravity_pH.new .ARDUINO_SAMD_MKRWIFI1010 0) (intToFloat 1186)

/-- The calibration calls of the class, as data: `mid v` is `cal_mid(v)`, and so on. -/
inductive CalOp where
  | mid (voltage_mV : F32)
  | low (voltage_mV : F32)
  | high (voltage_mV : F32)
  | clear

/-- Perform one calibration call on the object. -/
def CalOp.run (self : Gravity_pH) : CalOp → Gravity_pH
  | .mid v => cal_mid self v
  | .low v => cal_low self v
  | .high v => cal_high self v
  | .clear => cal_clear self

/-- Perform a sequence of calibration calls, first to last. -/
def runCalOps (self : Gravity_pH) (ops : List CalOp) : Gravity_pH :=
  ops.foldl CalOp.run self

/-! ## On-board LED (on_board_led.h, on_board_led.cpp) -/

/-- The pin of the red channel, `#define LED_RED 25`. -/
def LED_RED : Nat := 25

/-- The pin of the green channel, `#define LED_GREEN 26`. -/
def LED_GREEN : Nat := 26

/-- The pin of the blue channel, `#define LED_BLUE 27`. -/
def LED_BLUE : Nat := 27

/-- The least intensity, `#define LED_INTENSITY_MIN 0`. -/
def LED_INTENSITY_MIN : Int := 0

/-- The greatest intensity, `#define LED_INTENSITY_MAX 255`. -/
def LED_INTENSITY_MAX : Int := 255

/-- The Arduino core macro
`constrain(amt,low,high) ((amt)<(low)?(low):((amt)>(high)?(high):(amt)))`. -/
def constrain (amt low high : Int) : Int :=
  if amt < low then low else if amt > high then high else amt

/-- One call `WiFiDrv::analogWrite(pin, value)`, with the value the callee receives. -/
structure AnalogWrite where
  pin : Nat
  value : Int
  deriving DecidableEq, Repr

/-- A mathematical integer as a 32-bit `int` in two's complement (the `int` of the MKR WiFi
1010).  C++ leaves the overflow of `int` arithmetic undefined; the result taken here is the one
the processor computes, the value modulo `2 ^ 32` in the range of `int`. -/
def wrapInt (v : Int) : Int := (v + 2 ^ 31) % 2 ^ 32 - 2 ^ 31

/-- The product `a * b` of two `int`s. -/
def intMul (a b : Int) : Int := wrapInt (a * b)

/-- The conversion of an `int` to `uint8_t`: the value modulo 256. -/
def toUint8 (v : Int) : Int := v % 256

/-- Modelled from the spec: the declaration of `WiFiDrv::analogWrite` (WiFiNINA,
`utility/wifi_drv.h`, included by `on_board_led.h`) is not among the sources.  The spec gives the
channel values of the PWM-write primitive as 0-255, and the library declares
`static void analogWrite(uint8_t pin, uint8_t value)`: the `int` argument of a call is converted
to `uint8_t`. -/
def WiFiDrv.analogWrite (pin : Nat) (value : Int) : AnalogWrite := ⟨pin, toUint8 value⟩

/-- The function `setOnBoardLEDColor`: the calls of `WiFiDrv::analogWrite` it makes, in order.
`Int.tdiv` is the division of C++ `int`. -/
def setOnBoardLEDColor (red green blue intensity : Int) : List AnalogWrite :=
  let red := constrain red LED_INTENSITY_MIN LED_INTENSITY_MAX
  let green := constrain green LED_INTENSITY_MIN LED_INTENSITY_MAX
  let blue := constrain blue LED_INTENSITY_MIN LED_INTENSITY_MAX
  let intensity := constrain intensity LED_INTENSITY_MIN LED_INTENSITY_MAX
  [ WiFiDrv.analogWrite LED_RED (Int.tdiv (intMul red intensity) LED_INTENSITY_MAX),
    WiFiDrv.analogWrite LED_GREEN (Int.tdiv (intMul green intensity) LED_INTENSITY_MAX),
    WiFiDrv.analogWrite LED_BLUE (Int.tdiv (intMul blue intensity) LED_INTENSITY_MAX) ]

/-! ## RF remote-control codes (ESP32-RF-Transmitter/main/config.h) -/

/-- One button of the remote control: the constants `rfDecimalCode<name>` and
`rfBinaryCode<name>`. -/
structure RfCode where
  name : String
  rfDecimalCode : Nat
  rfBinaryCode : String
  deriving DecidableEq, Repr

/-- The code table of config.h, in the order of the file. -/
def rfCodes : List RfCode :=
  [ ⟨"Brightness", 334849, "000001010001110000000001"⟩,
    ⟨"SleepTimer", 334850, "000001010001110000000010"⟩,
    ⟨"Power", 334851, "000001010001110000000011"⟩,
    ⟨"4H", 334852, "000001010001110000000100"⟩,
    ⟨"8H", 334853, "000001010001110000000101"⟩,
    ⟨"12H", 334854, "000001010001110000000110"⟩,
    ⟨"Flash", 334855, "000001010001110000000111"⟩,
    ⟨"White", 334856, "000001010001110000001000"⟩,
    ⟨"Fade", 334857, "000001010001110000001001"⟩,
    ⟨"Red", 334858, "000001010001110000001010"⟩,
    ⟨"Green", 334859, "000001010001110000001011"⟩,
    ⟨"Blue", 334860, "000001010001110000001100"⟩,
    ⟨"Orange", 334861, "000001010001110000001101"⟩,
    ⟨"SeaGreen", 334862, "000001010001110000001110"⟩,
    ⟨"Teal", 334863, "000001010001110000001111"⟩,
    ⟨"OrangeYellow", 334864, "000001010001110000010000"⟩,
    ⟨"Cyan", 334865, "000001010001110000010001"⟩,
    ⟨"Indigo", 334866, "000001010001110000010010"⟩,
    ⟨"Yellow", 334867, "000001010001110000010011"⟩,
    ⟨"Azure", 334868, "000001010001110000010100"⟩,
    ⟨"Magenta", 334869, "000001010001110000010101"⟩ ]

/-- The button names the table is expected to cover. -/
def rfButtons : List String :=
  [ "Brightness", "SleepTimer", "Power", "4H", "8H", "12H", "Flash", "White", "Fade", "Red",
    "Green", "Blue", "Orange", "SeaGreen", "Teal", "OrangeYellow", "Cyan", "Indigo", "Yellow",
    "Azure", "Magenta" ]

/-- The number written by a string of binary digits, most significant digit first; `none`
when a character is neither `0` nor `1`. -/
def binaryValue (cs : List Char) : Option Nat :=
  cs.foldl (fun acc c =>
    match acc with
    | none => none
    | some n => if c = '0' then some (2 * n) else if c = '1' then some (2 * n + 1) else none)
    (some 0)

/-! ## Colour codes and fades of the on-board LED (on_board_led.cpp) -/

/-- The function `setLedColorForCode`: the calls of `WiFiDrv::analogWrite` it makes, in order.
`colorCode` is the array the pointer argument points to; element `k` is `colorCode.getD k 0`,
an `int`. -/
def setLedColorForCode (colorCode : List Int) (intensity : Int) : List AnalogWrite :=
  let intensity := constrain intensity LED_INTENSITY_MIN LED_INTENSITY_MAX
  [ WiFiDrv.analogWrite LED_RED
      (Int.tdiv (intMul (colorCode.getD 0 0) intensity) LED_INTENSITY_MAX),
    WiFiDrv.analogWrite LED_GREEN
      (Int.tdiv (intMul (colorCode.getD 1 0) intensity) LED_INTENSITY_MAX),
    WiFiDrv.analogWrite LED_BLUE
      (Int.tdiv (intMul (colorCode.getD 2 0) intensity) LED_INTENSITY_MAX) ]

/-- The conversion `(int)x` of a `float`: the value with its fraction dropped.  C++ leaves the
conversion of NaN and of the infinities undefined; here they give 0. -/
def Flt.toInt {f : Fmt} : Flt f → Int
  | .fin s m => Flt.sval s (m / 2 ^ f.scale)
  | _ => 0

/-- What the fade functions do to the outside, in order: a call of `WiFiDrv::analogWrite` or a
call of `delay(ms)`. -/
inductive LedEvent where
  | write (w : AnalogWrite)
  | delay (ms : Nat)
  deriving DecidableEq, Repr

/-- The milliseconds spent in `delay` calls by a sequence of events. -/
def totalDelay : List LedEvent → Nat
  | [] => 0
  | .write _ :: es => totalDelay es
  | .delay ms :: es => ms + totalDelay es

/-- The `AnalogWrite` calls of a sequence of events, in order. -/
def writesOf : List LedEvent → List AnalogWrite
  | [] => []
  | .write w :: es => w :: writesOf es
  | .delay _ :: es => writesOf es

/-- The number of steps of a fade: `fadeDuration / 10`, and 1 if that is below 1. -/
def fadeNumSteps (fadeDuration : Int) : Int :=
  let numSteps := Int.tdiv fadeDuration 10
  if numSteps < 1 then 1 else numSteps

/-- The function `fadeOnBoardLedColor`: its calls of `WiFiDrv::analogWrite` (through
`setOnBoardLEDColor`) and of `delay`, in order.  The fade-in loop runs `i = 0, ..., numSteps - 1`
and the fade-out loop `i = numSteps, ..., 1`. -/
def fadeOnBoardLedColor (red green blue intensity fadeDuration : Int) : List LedEvent :=
  let red := constrain red LED_INTENSITY_MIN LED_INTENSITY_MAX
  let green := constrain green LED_INTENSITY_MIN LED_INTENSITY_MAX
  let blue := constrain blue LED_INTENSITY_MIN LED_INTENSITY_MAX
  let intensity := constrain intensity LED_INTENSITY_MIN LED_INTENSITY_MAX
  let numSteps := fadeNumSteps fadeDuration
  let stepR : F32 := intToFloat (red - LED_INTENSITY_MIN) / intToFloat numSteps
  let stepG : F32 := intToFloat (green - LED_INTENSITY_MIN) / intToFloat numSteps
  let stepB : F32 := intToFloat (blue - LED_INTENSITY_MIN) / intToFloat numSteps
  let stepI : F32 := intToFloat (intensity - LED_INTENSITY_MIN) / intToFloat numSteps
  let fadeIn := ((List.range numSteps.toNat).map Int.ofNat).flatMap fun i =>
    (setOnBoardLEDColor (Flt.toInt (intToFloat i * stepR)) (Flt.toInt (intToFloat i * stepG))
      (Flt.toInt (intToFloat i * stepB)) (Flt.toInt (intToFloat i * stepI))).map LedEvent.write
      ++ [LedEvent.delay 10]
  let fadeOut := ((List.range numSteps.toNat).reverse.map fun k => Int.ofNat k + 1).flatMap fun i =>
    (setOnBoardLEDColor (Flt.toInt (intToFloat (i - 1) * stepR))
      (Flt.toInt (intToFloat (i - 1) * stepG))
      (Flt.toInt (intToFloat (i - 1) * stepB))
      (Flt.toInt (intToFloat (i - 1) * stepI))).map LedEvent.write
      ++ [LedEvent.delay 10]
  fadeIn ++ fadeOut ++ (setOnBoardLEDColor red green blue intensity).map LedEvent.write

/-- The function `fadeOnBoardLedColorForCode`: its calls of `WiFiDrv::analogWrite` (through
`setLedColorForCode`) and of `delay`, in order.  The step sizes of the three colour components
are computed by the source but never used, so only `stepI` appears. -/
def fadeOnBoardLedColorForCode (colorCode : List Int) (intensity fadeDuration : Int) :
    List LedEvent :=
  let intensity := constrain intensity LED_INTENSITY_MIN LED_INTENSITY_MAX
  let numSteps := fadeNumSteps fadeDuration
  let stepI : F32 := intToFloat (intensity - LED_INTENSITY_MIN) / intToFloat numSteps
  let fadeIn := ((List.range numSteps.toNat).map Int.ofNat).flatMap fun i =>
    (setLedColorForCode colorCode (Flt.toInt (intToFloat i * stepI))).map LedEvent.write
      ++ [LedEvent.delay 10]
  let fadeOut := ((List.range numSteps.toNat).reverse.map fun k => Int.ofNat k + 1).flatMap fun i =>
    (setLedColorForCode colorCode (Flt.toInt (intToFloat (i - 1) * stepI))).map
      LedEvent.write ++ [LedEvent.delay 10]
  fadeIn ++ fadeOut ++ (setLedColorForCode colorCode intensity).map LedEvent.write

/-! ## LCD typewriter print (lcd_display.h, lcd_display.cpp) -/

/-- What `lcdPrettyPrint` does to the display, in order: `lcd.print(c)` or `lcd.clear()`. -/
inductive LcdOp where
  | print (c : Char)
  | clear
  deriving DecidableEq, Repr

/-- The number of values of an `unsigned long` (32 bits on every Arduino board). -/
def ULONG_SIZE : Nat := 2 ^ 32

/-- The largest `int` of a board with 32-bit `int`. -/
def INT_MAX : Int := 2 ^ 31 - 1

/-- The function `millis()`: the time since the start in milliseconds as an `unsigned long`, so
it starts again from 0 after `2 ^ 32` ms.  `clock k` is the time at call number `k` of `millis`
within one run of `lcdPrettyPrint`. -/
def millis (clock : Nat → Nat) (k : Nat) : Nat := clock k % ULONG_SIZE

/-- The difference `a - b` of two `unsigned long` values. -/
def ulSub (a b : Nat) : Nat := (a % ULONG_SIZE + ULONG_SIZE - b % ULONG_SIZE) % ULONG_SIZE

/-- The conversion of an `int` to `unsigned long`, which the comparison of an `unsigned long`
with an `int` applies to the `int`. -/
def toUL (d : Int) : Nat := (d % (ULONG_SIZE : Int)).toNat

/-- The method `String::endsWith`. -/
def endsWith (s suffix : List Char) : Bool := suffix.isSuffixOf s

/-- The method `String::charAt`: the character at `index`, and 0 outside the string. -/
def charAt (s : List Char) (index : Nat) : Char := s.getD index (Char.ofNat 0)

/-- The delay between characters after `currentIndex` has been incremented: the text slows down
to `delayTimeEndChar` near its end, from an index that depends on how the text ends. -/
def nextDelay (dataPrintout : List Char) (currentIndex : Nat)
    (delayTimeBetweenChar delayTimeEndChar : Int) : Int :=
  let stringLength : Int := dataPrintout.length
  if endsWith dataPrintout "...".toList then
    if (currentIndex : Int) ≥ stringLength - 4 then delayTimeEndChar else delayTimeBetweenChar
  else if endsWith dataPrintout "!".toList then
    if (currentIndex : Int) ≥ stringLength - 1 then delayTimeEndChar else delayTimeBetweenChar
  else
    if (currentIndex : Int) ≥ stringLength - 3 then delayTimeEndChar else delayTimeBetweenChar

/-- The first loop of `lcdPrettyPrint`, `while (currentIndex < stringLength)`, from the state
(`previousMillis`, `currentIndex`, `delayTimeBetweenChar`) with `k` calls of `millis` made so
far.  Every iteration calls `millis` once.  The result is the display operations of the loop and
the number of calls of `millis` made when it ends; `none` when `fuel` iterations do not end
it. -/
def printLoop (clock : Nat → Nat) (dataPrintout : List Char) (delayTimeEndChar : Int) :
    Nat → Nat → Nat → Nat → Int → Option (List LcdOp × Nat)
  | 0, k, _, currentIndex, _ =>
    if currentIndex < dataPrintout.length then none else some ([], k)
  | fuel + 1, k, previousMillis, currentIndex, delayTimeBetweenChar =>
    if currentIndex < dataPrintout.length then
      let currentMillis := millis clock k
      if ulSub currentMillis previousMillis ≥ toUL delayTimeBetweenChar then
        match printLoop clock dataPrintout delayTimeEndChar fuel (k + 1) currentMillis
            (currentIndex + 1)
            (nextDelay dataPrintout (currentIndex + 1) delayTimeBetweenChar
              delayTimeEndChar) with
        | some (ops, k1) => some (LcdOp.print (charAt dataPrintout currentIndex) :: ops, k1)
        | none => none
      else
        printLoop clock dataPrintout delayTimeEndChar fuel (k + 1) previousMillis currentIndex
          delayTimeBetweenChar
    else some ([], k)

/-- The loop `while (millis() - clearMillis < delayBeforeClear) { }` with `k` calls of `millis`
made so far: the number of calls made when it ends, `none` when `fuel` iterations do not end
it. -/
def waitLoop (clock : Nat → Nat) (clearMillis : Nat) (delayBeforeClear : Int) :
    Nat → Nat → Option Nat
  | 0, k =>
    if ulSub (millis clock k) clearMillis < toUL delayBeforeClear then none else some (k + 1)
  | fuel + 1, k =>
    if ulSub (millis clock k) clearMillis < toUL delayBeforeClear then
      waitLoop clock clearMillis delayBeforeClear fuel (k + 1)
    else some (k + 1)

/-- The function `lcdPrettyPrint` (the six-parameter overload all others call): the operations
it performs on the display `lcd`, in order, or `none` when one of its loops runs for more than
`fuel` iterations.  The text is its list of characters; its length fits an `int`. -/
def lcdPrettyPrint (clock : Nat → Nat) (dataPrintout : List Char) (clearDisplay : Bool)
    (delayBeforeClear delayTimeBetweenChar delayTimeEndChar : Int) (fuel : Nat) :
    Option (List LcdOp) :=
  let previousMillis : Nat := 0
  let currentIndex : Nat := 0
  match printLoop clock dataPrintout delayTimeEndChar fuel 0 previousMillis currentIndex
      delayTimeBetweenChar with
  | none => none
  | some (ops, k) =>
    if clearDisplay = true then
      let clearMillis := millis clock k
      match waitLoop clock clearMillis delayBeforeClear fuel (k + 1) with
      | none => none
      | some _ => some (ops ++ [LcdOp.clear])
    else some ops

/-- A clock that keeps advancing, seen at the calls of `millis`: it never goes back, it passes
every time, and two calls in a row are at most `2 ^ 31` ms apart. -/
structure Advancing (clock : Nat → Nat) : Prop where
  mono : ∀ k, clock k ≤ clock (k + 1)
  step : ∀ k, clock (k + 1) ≤ clock k + 2 ^ 31
  unbounded : ∀ t, ∃ k, t ≤ clock k

/-! # Theorems -/

/-- C4. `cal_clear` is a constant, idempotent reset of the voltages: afterwards the stored
voltages are 1529 (mid), 2033 (low) and 1119 (high) whatever they were before, the three
reference pH values and the pin are unchanged, and a second `cal_clear` changes nothing. -/
theorem cal_clear_constant_idempotent (s : Gravity_pH) :
    (cal_clear s).pH.mid_cal = intToFloat 1529 ∧
    (cal_clear s).pH.low_cal = intToFloat 2033 ∧
    (cal_clear s).pH.high_cal = intToFloat 1119 ∧
    (cal_clear s).pH.mid_solution_ph = s.pH.mid_solution_ph ∧
    (cal_clear s).pH.low_solution_ph = s.pH.low_solution_ph ∧
    (cal_clear s).pH.high_solution_ph = s.pH.high_solution_ph ∧
    cal_clear (cal_clear s) = cal_clear s := by
  simp [cal_clear]

/-- C5. Each calibration call overwrites exactly one voltage field: `cal_mid v` sets `mid_cal`
to `v`, `cal_low v` sets `low_cal` to `v`, `cal_high v` sets `high_cal` to `v`, and every
other field of the object keeps its value. -/
theorem cal_overwrites_one_field (s : Gravity_pH) (v : F32) :
    cal_mid s v = { s with pH := { s.pH with mid_cal := v } } ∧
    (cal_mid s v).pH.mid_cal = v ∧
    (cal_mid s v).pH.low_cal = s.pH.low_cal ∧
    (cal_mid s v).pH.high_cal = s.pH.high_cal ∧
    (cal_mid s v).pH.mid_solution_ph = s.pH.mid_solution_ph ∧
    (cal_mid s v).pH.low_solution_ph = s.pH.low_solution_ph ∧
    (cal_mid s v).pH.high_solution_ph = s.pH.high_solution_ph ∧
    (cal_low s v).pH.low_cal = v ∧
    (cal_low s v).pH.mid_cal = s.pH.mid_cal ∧
    (cal_low s v).pH.high_cal = s.pH.high_cal ∧
    (cal_low s v).pH.mid_solution_ph = s.pH.mid_solution_ph ∧
    (cal_low s v).pH.low_solution_ph = s.pH.low_solution_ph ∧
    (cal_low s v).pH.high_solution_ph = s.pH.high_solution_ph ∧
    (cal_high s v).pH.high_cal = v ∧
    (cal_high s v).pH.mid_cal = s.pH.mid_cal ∧
    (cal_high s v).pH.low_cal = s.pH.low_cal ∧
    (cal_high s v).pH.mid_solution_ph = s.pH.mid_solution_ph ∧
    (cal_high s v).pH.low_solution_ph = s.pH.low_solution_ph ∧
    (cal_high s v).pH.high_solution_ph = s.pH.high_solution_ph := by
  simp [cal_mid, cal_low, cal_high]

/-- C6. `calc_ph_from_formula` depends only on its argument: in any two objects, and after any
sequence of calibration calls on either, it returns the same value, namely
`-5.6548 * v / 1000 + 15.509` evaluated in `double` and converted to `float`; and the call
leaves the object as it was. -/
theorem calc_ph_from_formula_independent (b : Board) (s1 s2 : Gravity_pH) (ops : List CalOp)
    (v : F32) :
    (calc_ph_from_formula b s1 v).1 = (calc_ph_from_formula b s2 v).1 ∧
    (calc_ph_from_formula b (runCalOps s1 ops) v).1 = (calc_ph_from_formula b s1 v).1 ∧
    (calc_ph_from_formula b s1 v).1
      = toFloat ((-lit b 56548 10000) * toDbl b v / intToDbl b 1000 + lit b 15509 1000) ∧
    (calc_ph_from_formula b s1 v).2 = s1 :=
  ⟨rfl, rfl, rfl, rfl⟩

/-- The macro `constrain` with the bounds 0 and 255 is the clamp to `[0, 255]`: values below
0 become 0, values above 255 become 255, and values in between stay as they are. -/
theorem constrain_clamp (x : Int) :
    constrain x LED_INTENSITY_MIN LED_INTENSITY_MAX = max 0 (min 255 x) := by
  unfold constrain LED_INTENSITY_MIN LED_INTENSITY_MAX
  split_ifs <;> omega

/-- The values `setOnBoardLEDColor` clamps to lie in `[0, 255]`. -/
theorem constrain_range (x : Int) :
    0 ≤ constrain x LED_INTENSITY_MIN LED_INTENSITY_MAX ∧
      constrain x LED_INTENSITY_MIN LED_INTENSITY_MAX ≤ 255 := by
  unfold constrain LED_INTENSITY_MIN LED_INTENSITY_MAX
  split_ifs <;> omega

/-- A channel value `c * i / 255` with `c` and `i` in `[0, 255]` is in `[0, 255]`, is `c`
when `i = 255` and is 0 when `i = 0`. -/
theorem channel_range (c i : Int) (hc0 : 0 ≤ c) (hc : c ≤ 255) (hi0 : 0 ≤ i) (hi : i ≤ 255) :
    0 ≤ Int.tdiv (c * i) 255 ∧ Int.tdiv (c * i) 255 ≤ 255 ∧ Int.tdiv (c * i) 255 = c * i / 255 ∧
      (i = 255 → Int.tdiv (c * i) 255 = c) ∧ (i = 0 → Int.tdiv (c * i) 255 = 0) := by
  have hci : 0 ≤ c * i := Int.mul_nonneg hc0 hi0
  have hle : c * i ≤ 255 * 255 := by nlinarith
  have he : Int.tdiv (c * i) 255 = c * i / 255 := Int.tdiv_eq_ediv hci (by norm_num)
  rw [he]
  refine ⟨by omega, by omega, rfl, ?_, ?_⟩
  · intro h; subst h; omega
  · intro h; subst h; simp

/-- With `c` and `i` in `[0, 255]` the product `c * i` fits an `int` and `c * i / 255` fits a
`uint8_t`: the call `WiFiDrv::analogWrite(pin, c * i / 255)` passes that value unchanged. -/
theorem analogWrite_channel (pin : Nat) (c i : Int) (hc0 : 0 ≤ c) (hc : c ≤ 255) (hi0 : 0 ≤ i)
    (hi : i ≤ 255) :
    WiFiDrv.analogWrite pin (Int.tdiv (intMul c i) 255) = ⟨pin, c * i / 255⟩ := by
  obtain ⟨h0, h1, he, -, -⟩ := channel_range c i hc0 hc hi0 hi
  have hci : 0 ≤ c * i := Int.mul_nonneg hc0 hi0
  have hle : c * i ≤ 255 * 255 := by nlinarith
  have hw : intMul c i = c * i := by
    unfold intMul wrapInt
    norm_num
    omega
  rw [hw, he] at *
  unfold WiFiDrv.analogWrite toUint8
  congr 1
  omega

/-- C9. For all integer arguments, `setOnBoardLEDColor` writes to pins 25, 26 and 27, in this
order, the values `clamp(c) * clamp(intensity) / 255` (integer division) of the red, green and
blue component, where `clamp x = max 0 (min 255 x)` restricts to `[0, 255]` and is what the
macro `constrain` computes: 0 below 0, 255 above 255, and `x` itself in between.  Every
written value is in `[0, 255]`; it is the clamped component when `intensity >= 255`, hence the
component itself when that is in `[0, 255]`, and 0 when `intensity <= 0`. -/
theorem setOnBoardLEDColor_writes (red green blue intensity : Int) :
    (∀ x : Int, constrain x 0 255 = max 0 (min 255 x) ∧
      (x < 0 → constrain x 0 255 = 0) ∧ (255 < x → constrain x 0 255 = 255) ∧
      (0 ≤ x → x ≤ 255 → constrain x 0 255 = x)) ∧
    setOnBoardLEDColor red green blue intensity =
      [ ⟨25, max 0 (min 255 red) * max 0 (min 255 intensity) / 255⟩,
        ⟨26, max 0 (min 255 green) * max 0 (min 255 intensity) / 255⟩,
        ⟨27, max 0 (min 255 blue) * max 0 (min 255 intensity) / 255⟩ ] ∧
    setOnBoardLEDColor red green blue intensity =
      [ ⟨25, constrain red 0 255 * constrain intensity 0 255 / 255⟩,
        ⟨26, constrain green 0 255 * constrain intensity 0 255 / 255⟩,
        ⟨27, constrain blue 0 255 * constrain intensity 0 255 / 255⟩ ] ∧
    (∀ w ∈ setOnBoardLEDColor red green blue intensity, 0 ≤ w.value ∧ w.value ≤ 255) ∧
    (255 ≤ intensity → setOnBoardLEDColor red green blue intensity =
      [ ⟨25, max 0 (min 255 red)⟩, ⟨26, max 0 (min 255 green)⟩, ⟨27, max 0 (min 255 blue)⟩ ]) ∧
    (255 ≤ intensity → 0 ≤ red → red ≤ 255 → 0 ≤ green → green ≤ 255 → 0 ≤ blue → blue ≤ 255 →
      setOnBoardLEDColor red green blue intensity = [ ⟨25, red⟩, ⟨26, green⟩, ⟨27, blue⟩ ]) ∧
    (intensity ≤ 0 → setOnBoardLEDColor red green blue intensity =
      [ ⟨25, 0⟩, ⟨26, 0⟩, ⟨27, 0⟩ ]) := by
  have hcl : ∀ x : Int, constrain x 0 255 = max 0 (min 255 x) := constrain_clamp
  obtain ⟨r0, r1⟩ := constrain_range red
  obtain ⟨g0, g1⟩ := constrain_range green
  obtain ⟨b0, b1⟩ := constrain_range blue
  obtain ⟨i0, i1⟩ := constrain_range intensity
  have hr := analogWrite_channel 25 _ _ r0 r1 i0 i1
  have hg := analogWrite_channel 26 _ _ g0 g1 i0 i1
  have hb := analogWrite_channel 27 _ _ b0 b1 i0 i1
  obtain ⟨hr0, hr1, hre, hrmax, hrmin⟩ := channel_range _ _ r0 r1 i0 i1
  obtain ⟨hg0, hg1, hge, hgmax, hgmin⟩ := channel_range _ _ g0 g1 i0 i1
  obtain ⟨hb0, hb1, hbe, hbmax, hbmin⟩ := channel_range _ _ b0 b1 i0 i1
  have hval : setOnBoardLEDColor red green blue intensity =
      [ ⟨25, constrain red 0 255 * constrain intensity 0 255 / 255⟩,
        ⟨26, constrain green 0 255 * constrain intensity 0 255 / 255⟩,
        ⟨27, constrain blue 0 255 * constrain intensity 0 255 / 255⟩ ] := by
    simp only [LED_INTENSITY_MIN, LED_INTENSITY_MAX] at hr hg hb
    simp only [setOnBoardLEDColor, LED_RED, LED_GREEN, LED_BLUE, LED_INTENSITY_MIN,
      LED_INTENSITY_MAX, hr, hg, hb]
  simp only [LED_INTENSITY_MIN, LED_INTENSITY_MAX] at *
  rw [hre] at hr0 hr1 hrmax hrmin
  rw [hge] at hg0 hg1 hgmax hgmin
  rw [hbe] at hb0 hb1 hbmax hbmin
  refine ⟨fun x => ⟨hcl x, ?_, ?_, ?_⟩, ?_, hval, ?_, ?_, ?_, ?_⟩
  · intro h
    rw [hcl]
    omega
  · intro h
    rw [hcl]
    omega
  · intro h0 h1
    rw [hcl]
    omega
  · rw [hval, hcl, hcl, hcl, hcl]
  · intro w hw
    rw [hval] at hw
    simp only [List.mem_cons, List.mem_singleton, List.not_mem_nil, or_false] at hw
    rcases hw with h | h | h <;> subst h <;> constructor <;> assumption
  · intro h
    have hi : constrain intensity 0 255 = 255 := by
      rw [hcl]
      omega
    rw [hval, hrmax hi, hgmax hi, hbmax hi, hcl, hcl, hcl]
  · intro h hr0 hr1 hg0 hg1 hb0 hb1
    have hi : constrain intensity 0 255 = 255 := by
      rw [hcl]
      omega
    have e1 : constrain red 0 255 = red := by
      rw [hcl]
      omega
    have e2 : constrain green 0 255 = green := by
      rw [hcl]
      omega
    have e3 : constrain blue 0 255 = blue := by
      rw [hcl]
      omega
    rw [hval, hrmax hi, hgmax hi, hbmax hi, e1, e2, e3]
  · intro h
    have hi : constrain intensity 0 255 = 0 := by
      rw [hcl]
      omega
    rw [hval, hrmin hi, hgmin hi, hbmin hi]

/-- C10. The RF code table is self-consistent: it has one entry for each of the 21 buttons,
each binary code is exactly 24 characters, all `0` or `1`, and writes the decimal code of the
same button in binary, most significant bit first; and the 21 decimal codes are pairwise
distinct. -/
theorem rfCodes_consistent :
    rfCodes.map (fun c => c.name) = rfButtons ∧ rfCodes.length = 21 ∧
    (∀ c ∈ rfCodes, c.rfBinaryCode.data.length = 24 ∧
      (∀ ch ∈ c.rfBinaryCode.data, ch = '0' ∨ ch = '1') ∧
      binaryValue c.rfBinaryCode.data = some c.rfDecimalCode ∧
      c.rfDecimalCode < 2 ^ 24) ∧
    (rfCodes.map (fun c => c.rfDecimalCode)).Nodup := by
  refine ⟨by decide, by decide, ?_, by decide⟩
  decide

/-! ## Arithmetic of the rounding functions -/

theorem log2_div_pow (k n : Nat) (h : 2 ^ k ≤ n) : Nat.log 2 (n / 2 ^ k) + k = Nat.log 2 n := by
  induction k with
  | zero => simp
  | succ k ih =>
    have h1 : 2 ^ k ≤ n := le_trans (Nat.pow_le_pow_right (by norm_num) (Nat.le_succ k)) h
    have h2 : 2 ≤ n / 2 ^ k := by
      rw [Nat.le_div_iff_mul_le (Nat.pow_pos (by norm_num))]
      calc 2 * 2 ^ k = 2 ^ (k + 1) := by ring
        _ ≤ n := h
    rw [← ih h1, pow_succ, ← Nat.div_div_eq_div_mul,
      Nat.log_of_one_lt_of_le (b := 2) (n := n / 2 ^ k) (by norm_num) h2]
    omega

theorem ilog2Aux_eq (fuel n : Nat) (h : n ≤ fuel) : ilog2Aux fuel n = Nat.log 2 n := by
  induction fuel generalizing n with
  | zero =>
    have : n = 0 := by omega
    subst this
    simp [ilog2Aux]
  | succ k ih =>
    unfold ilog2Aux
    have hdiv : ∀ j, 0 < j → 2 ≤ n → n / 2 ^ j ≤ k := by
      intro j hj hn
      have : n / 2 ^ j ≤ n / 2 := by
        apply Nat.div_le_div_left _ (by norm_num)
        calc 2 = 2 ^ 1 := by norm_num
          _ ≤ 2 ^ j := Nat.pow_le_pow_right (by norm_num) hj
      omega
    split_ifs with h2 h3 h4
    · exact (Nat.log_of_lt h2).symm
    · rw [ih (n / 2) (by omega)]
      exact (Nat.log_of_one_lt_of_le (by norm_num) (by omega)).symm
    · rw [ih _ (hdiv 16 (by norm_num) (by omega))]
      exact log2_div_pow 16 n (by omega)
    · rw [ih _ (hdiv 256 (by norm_num) (by omega))]
      exact log2_div_pow 256 n (by omega)

theorem ilog2_eq (n : Nat) : ilog2 n = Nat.log 2 n := ilog2Aux_eq n n le_rfl

theorem ilog2_mono {m n : Nat} (h : m ≤ n) : ilog2 m ≤ ilog2 n := by
  rw [ilog2_eq, ilog2_eq]; exact Nat.log_mono_right h

theorem pow_ilog2_le {n : Nat} (h : n ≠ 0) : 2 ^ ilog2 n ≤ n := by
  rw [ilog2_eq]; exact Nat.pow_log_le_self 2 h

theorem lt_pow_ilog2 (n : Nat) : n < 2 ^ (ilog2 n + 1) := by
  rw [ilog2_eq]; exact Nat.lt_pow_succ_log_self (by norm_num) n

/-- The three possible outcomes of `rne`, with the condition under which each is taken. -/
theorem rne_cases (a b : Nat) :
    (rne a b = a / b ∧ 2 * (a % b) < b) ∨
    (rne a b = a / b + 1 ∧ b < 2 * (a % b)) ∨
    (rne a b = a / b ∧ 2 * (a % b) = b ∧ (a / b) % 2 = 0) ∨
    (rne a b = a / b + 1 ∧ 2 * (a % b) = b ∧ (a / b) % 2 = 1) := by
  unfold rne
  simp only
  split_ifs with h1 h2 h3
  · exact Or.inl ⟨rfl, h1⟩
  · exact Or.inr (Or.inl ⟨rfl, h2⟩)
  · exact Or.inr (Or.inr (Or.inl ⟨rfl, by omega, h3⟩))
  · exact Or.inr (Or.inr (Or.inr ⟨rfl, by omega, by omega⟩))

/-- `rne a b` is at most half a unit above `a / b`; when it is exactly half a unit above, it
is even. -/
theorem rne_upper (a b : Nat) (hb : 0 < b) :
    2 * rne a b * b ≤ 2 * a + b ∧ (2 * rne a b * b = 2 * a + b → rne a b % 2 = 0) := by
  have hdm : b * (a / b) + a % b = a := Nat.div_add_mod a b
  have hlt : a % b < b := Nat.mod_lt a hb
  generalize hq : a / b = q at hdm
  generalize hr : a % b = r at hdm hlt
  rcases rne_cases a b with ⟨e, h⟩ | ⟨e, h⟩ | ⟨e, h, hp⟩ | ⟨e, h, hp⟩ <;>
    rw [e, hq] <;> rw [hr] at h <;> try rw [hq] at hp
  · constructor
    · nlinarith
    · intro h'; exfalso; nlinarith
  · constructor
    · nlinarith
    · intro h'; exfalso; nlinarith
  · constructor
    · nlinarith
    · intro _; exact hp
  · constructor
    · nlinarith
    · intro _; omega

/-- `rne a b` is at most half a unit below `a / b`; when it is exactly half a unit below, it
is even. -/
theorem rne_lower (a b : Nat) (hb : 0 < b) :
    2 * a ≤ 2 * rne a b * b + b ∧ (2 * a = 2 * rne a b * b + b → rne a b % 2 = 0) := by
  have hdm : b * (a / b) + a % b = a := Nat.div_add_mod a b
  have hlt : a % b < b := Nat.mod_lt a hb
  generalize hq : a / b = q at hdm
  generalize hr : a % b = r at hdm hlt
  rcases rne_cases a b with ⟨e, h⟩ | ⟨e, h⟩ | ⟨e, h, hp⟩ | ⟨e, h, hp⟩ <;>
    rw [e, hq] <;> rw [hr] at h <;> try rw [hq] at hp
  · constructor
    · nlinarith
    · intro h'; exfalso; nlinarith
  · constructor
    · nlinarith
    · intro h'; exfalso; nlinarith
  · constructor
    · nlinarith
    · intro _; exact hp
  · constructor
    · nlinarith
    · intro h'; exfalso; nlinarith

/-- Rounding to the nearest integer is monotone in the fraction. -/
theorem rne_mono {a b c d : Nat} (hb : 0 < b) (hd : 0 < d) (h : a * d ≤ c * b) :
    rne a b ≤ rne c d := by
  obtain ⟨h1, t1⟩ := rne_upper a b hb
  obtain ⟨h2, t2⟩ := rne_lower c d hd
  by_contra hlt
  push_neg at hlt
  generalize rne a b = R at *
  generalize rne c d = S at *
  have hbd : 0 < b * d := Nat.mul_pos hb hd
  -- 2 R b d ≤ 2 a d + b d ≤ 2 c b + b d ≤ 2 S b d + 2 b d
  have e1 : 2 * R * b * d ≤ 2 * a * d + b * d := by nlinarith
  have e2 : 2 * c * b ≤ 2 * S * d * b + d * b := by nlinarith
  have e3 : 2 * R * (b * d) ≤ 2 * S * (b * d) + 2 * (b * d) := by nlinarith
  have e4 : R ≤ S + 1 := by
    by_contra h'
    push_neg at h'
    have : (S + 2) * (b * d) ≤ R * (b * d) := Nat.mul_le_mul_right _ h'
    nlinarith
  have e5 : R = S + 1 := by omega
  subst e5
  have q1 : 2 * (S + 1) * b = 2 * a + b := by
    apply le_antisymm h1
    by_contra h'
    push_neg at h'
    have : 2 * (S + 1) * b * d < (2 * a + b) * d := Nat.mul_lt_mul_of_pos_right h' hd
    nlinarith
  have q2 : 2 * c = 2 * S * d + d := by
    apply le_antisymm h2
    by_contra h'
    push_neg at h'
    have : 2 * c * b < (2 * S * d + d) * b := Nat.mul_lt_mul_of_pos_right h' hb
    nlinarith
  have p1 := t1 q1
  have p2 := t2 q2
  omega

/-- An integer is its own nearest integer. -/
theorem rne_mul_self (n b : Nat) (hb : 0 < b) : rne (n * b) b = n := by
  unfold rne
  simp [Nat.mul_div_cancel _ hb, hb]

theorem roundMag_def (f : Fmt) (a b : Nat) :
    f.roundMag a b = rne a (b * 2 ^ f.shift (a / b)) * 2 ^ f.shift (a / b) := rfl

/-- Cross-multiplied fractions have ordered integer parts. -/
theorem div_le_div_of_cross {a b c d : Nat} (hb : 0 < b) (hd : 0 < d) (h : a * d ≤ c * b) :
    a / b ≤ c / d := by
  rw [Nat.le_div_iff_mul_le hd]
  have h1 : a / b * b ≤ a := Nat.div_mul_le_self a b
  have h2 : a / b * d * b ≤ c * b := by
    calc a / b * d * b = a / b * b * d := by ring
      _ ≤ a * d := Nat.mul_le_mul_right d h1
      _ ≤ c * b := h
  exact Nat.le_of_mul_le_mul_right h2 hb

/-- Rounding a magnitude to the format is monotone in the magnitude. -/
theorem roundMag_mono (f : Fmt) {a b c d : Nat} (hb : 0 < b) (hd : 0 < d)
    (h : a * d ≤ c * b) : f.roundMag a b ≤ f.roundMag c d := by
  have hq : a / b ≤ c / d := div_le_div_of_cross hb hd h
  have hk : f.shift (a / b) ≤ f.shift (c / d) := Nat.sub_le_sub_right (ilog2_mono hq) _
  rw [roundMag_def, roundMag_def]
  generalize hk1 : f.shift (a / b) = k1 at hk
  generalize hk2 : f.shift (c / d) = k2 at hk
  have p1 : 0 < 2 ^ k1 := Nat.pow_pos (by norm_num)
  have p2 : 0 < 2 ^ k2 := Nat.pow_pos (by norm_num)
  rcases Nat.eq_or_lt_of_le hk with e | hlt
  · subst e
    apply Nat.mul_le_mul_right
    apply rne_mono (Nat.mul_pos hb p1) (Nat.mul_pos hd p1)
    calc a * (d * 2 ^ k1) = a * d * 2 ^ k1 := by ring
      _ ≤ c * b * 2 ^ k1 := Nat.mul_le_mul_right _ h
      _ = c * (b * 2 ^ k1) := by ring
  · -- the two magnitudes lie in different binades, separated by a power of two
    set P := f.prec - 1 with hP
    have hlog2 : ilog2 (c / d) = k2 + P := by
      have : f.shift (c / d) = ilog2 (c / d) - P := rfl
      omega
    have hlog1 : ilog2 (a / b) ≤ k1 + P := by
      have : f.shift (a / b) = ilog2 (a / b) - P := rfl
      omega
    have hc0 : c / d ≠ 0 := by
      intro h0
      rw [h0] at hlog2
      have : ilog2 0 = 0 := by simp [ilog2, ilog2Aux]
      omega
    have hT : 2 ^ (k2 + P) ≤ c / d := by
      rw [← hlog2]; exact pow_ilog2_le hc0
    have hTd : 2 ^ (k2 + P) * d ≤ c := (Nat.le_div_iff_mul_le hd).mp hT
    have lower : 2 ^ P ≤ rne c (d * 2 ^ k2) := by
      have := rne_mono (a := 2 ^ P * (d * 2 ^ k2)) (b := d * 2 ^ k2) (c := c) (d := d * 2 ^ k2)
        (Nat.mul_pos hd p2) (Nat.mul_pos hd p2) (by
          apply Nat.mul_le_mul_right
          calc 2 ^ P * (d * 2 ^ k2) = 2 ^ (k2 + P) * d := by rw [pow_add]; ring
            _ ≤ c := hTd)
      rwa [rne_mul_self _ _ (Nat.mul_pos hd p2)] at this
    have hU : a / b < 2 ^ (k1 + P + 1) :=
      lt_of_lt_of_le (lt_pow_ilog2 _) (Nat.pow_le_pow_right (by norm_num) (by omega))
    have hUb : a < 2 ^ (k1 + P + 1) * b := (Nat.div_lt_iff_lt_mul hb).mp hU
    have upper : rne a (b * 2 ^ k1) ≤ 2 ^ (P + 1) := by
      have := rne_mono (a := a) (b := b * 2 ^ k1) (c := 2 ^ (P + 1) * (b * 2 ^ k1))
        (d := b * 2 ^ k1) (Nat.mul_pos hb p1) (Nat.mul_pos hb p1) (by
          apply Nat.mul_le_mul_right
          calc a ≤ 2 ^ (k1 + P + 1) * b := hUb.le
            _ = 2 ^ (P + 1) * (b * 2 ^ k1) := by rw [pow_add, pow_add, pow_add]; ring)
      rwa [rne_mul_self _ _ (Nat.mul_pos hb p1)] at this
    calc rne a (b * 2 ^ k1) * 2 ^ k1 ≤ 2 ^ (P + 1) * 2 ^ k1 := Nat.mul_le_mul_right _ upper
      _ = 2 ^ (P + 1 + k1) := by rw [← pow_add]
      _ ≤ 2 ^ (P + k2) := Nat.pow_le_pow_right (by norm_num) (by omega)
      _ = 2 ^ P * 2 ^ k2 := by rw [pow_add]
      _ ≤ rne c (d * 2 ^ k2) * 2 ^ k2 := Nat.mul_le_mul_right _ lower

/-- A magnitude of the format is left alone by rounding. -/
theorem roundMag_of_rep (f : Fmt) {m c : Nat} (hc : 0 < c) (hm : m % 2 ^ f.shift m = 0) :
    f.roundMag (m * c) c = m := by
  rw [roundMag_def, Nat.mul_div_cancel _ hc]
  obtain ⟨n, hn⟩ := Nat.dvd_of_mod_eq_zero hm
  have p : 0 < 2 ^ f.shift m := Nat.pow_pos (by norm_num)
  have e : m * c = n * (c * 2 ^ f.shift m) := by
    calc m * c = 2 ^ f.shift m * n * c := by rw [← hn]
      _ = n * (c * 2 ^ f.shift m) := by ring
  rw [e, rne_mul_self _ _ (Nat.mul_pos hc p)]
  rw [Nat.mul_comm]; exact hn.symm

theorem roundMag_zero (f : Fmt) (b : Nat) : f.roundMag 0 b = 0 := by
  simp [roundMag_def, rne]

/-! ## Order and monotonicity of the floating-point operations -/

namespace Flt

variable {f : Fmt}

theorem sval_false (m : Nat) : sval false m = (m : Int) := rfl

theorem sval_true (m : Nat) : sval true m = -(m : Int) := rfl

theorem sub_def (x y : Flt f) : x - y = add x (neg y) := rfl

theorem mul_def (x y : Flt f) : x * y = mul x y := rfl

theorem div_def (x y : Flt f) : x / y = div x y := rfl

theorem add_def (x y : Flt f) : x + y = add x y := rfl

/-- The magnitude of a rounded result, the overflow to infinity included. -/
theorem key_round (s : Bool) (a b : Nat) :
    key (f.round s a b) = sval s (min (f.roundMag a b) (f.maxMag + 1)) := by
  unfold Fmt.round
  simp only
  split_ifs with h
  · simp only [key]; rw [Nat.min_eq_left (by omega)]
  · simp only [key]; rw [Nat.min_eq_right (by omega)]

theorem good_round (s : Bool) (a b : Nat) : good (f.round s a b) := by
  unfold Fmt.round
  simp only
  split_ifs with h
  · exact h
  · trivial

theorem key_bound {x : Flt f} (h : good x) :
    -((f.maxMag : Int) + 1) ≤ key x ∧ key x ≤ (f.maxMag : Int) + 1 := by
  cases x with
  | nan => exact absurd h id
  | inf s => cases s <;> simp only [key, sval] <;> constructor <;> simp <;> omega
  | fin s m =>
    have : m ≤ f.maxMag := h
    cases s <;> simp only [key, sval] <;> constructor <;> simp <;> omega

/-- On good data the comparison `<=` is the order of the keys. -/
theorem le_iff_key {x y : Flt f} (hx : good x) (hy : good y) :
    le x y = true ↔ key x ≤ key y := by
  cases x with
  | nan => exact absurd hx id
  | inf s =>
    cases y with
    | nan => exact absurd hy id
    | inf t => cases s <;> cases t <;> simp [le, key, sval] <;> omega
    | fin t n =>
      have : n ≤ f.maxMag := hy
      cases s <;> cases t <;> simp [le, key, sval] <;> omega
  | fin s m =>
    have hm : m ≤ f.maxMag := hx
    cases y with
    | nan => exact absurd hy id
    | inf t => cases s <;> cases t <;> simp [le, key, sval] <;> omega
    | fin t n => simp [le, key]

/-- Rounding is monotone in the signed fraction it rounds. -/
theorem key_round_mono {s t : Bool} {a b c d : Nat} (hb : 0 < b) (hd : 0 < d)
    (h : sval s a * d ≤ sval t c * b) :
    key (f.round s a b) ≤ key (f.round t c d) := by
  rw [key_round, key_round]
  cases s <;> cases t <;> simp only [sval_false, sval_true] at h ⊢
  · have h' : a * d ≤ c * b := by exact_mod_cast h
    have := roundMag_mono f hb hd h'
    have : min (f.roundMag a b) (f.maxMag + 1) ≤ min (f.roundMag c d) (f.maxMag + 1) :=
      min_le_min this le_rfl
    exact_mod_cast this
  · have h1 : (0 : Int) ≤ (a : Int) * d := by positivity
    have h2 : (0 : Int) ≤ (c : Int) * b := by positivity
    have ha : a * d = 0 := by
      have : (a : Int) * d = 0 := by linarith
      exact_mod_cast this
    have hc : c * b = 0 := by
      have : (c : Int) * b = 0 := by linarith
      exact_mod_cast this
    have ha0 : a = 0 := by
      rcases Nat.mul_eq_zero.mp ha with h | h
      · exact h
      · omega
    have hc0 : c = 0 := by
      rcases Nat.mul_eq_zero.mp hc with h | h
      · exact h
      · omega
    subst ha0 hc0
    simp [roundMag_zero]
  · have h1 : (0 : Int) ≤ ((min (f.roundMag a b) (f.maxMag + 1) : Nat) : Int) := by positivity
    have h2 : (0 : Int) ≤ ((min (f.roundMag c d) (f.maxMag + 1) : Nat) : Int) := by positivity
    linarith
  · have h' : c * b ≤ a * d := by
      have : (c : Int) * b ≤ (a : Int) * d := by linarith
      exact_mod_cast this
    have := roundMag_mono f hd hb h'
    have : min (f.roundMag c d) (f.maxMag + 1) ≤ min (f.roundMag a b) (f.maxMag + 1) :=
      min_le_min this le_rfl
    have : ((min (f.roundMag c d) (f.maxMag + 1) : Nat) : Int)
        ≤ ((min (f.roundMag a b) (f.maxMag + 1) : Nat) : Int) := by exact_mod_cast this
    linarith

end Flt

namespace Flt

variable {f : Fmt}

theorem sval_not (t : Bool) (n : Nat) : sval (!t) n = -sval t n := by
  cases t <;> simp [sval]

theorem sval_decide_natAbs (z : Int) : sval (decide (z < 0)) z.natAbs = z := by
  by_cases h : z < 0
  · simp only [h, decide_True, sval_true]; omega
  · simp only [h, decide_False, sval_false]; omega

theorem sub_fin_fin (s t : Bool) (m n : Nat) :
    (fin s m : Flt f) - fin t n =
      if sval s m - sval t n = 0 then fin (s && !t) 0
      else f.round (decide (sval s m - sval t n < 0)) (sval s m - sval t n).natAbs 1 := by
  simp only [sub_def, neg, add, sval_not, sub_eq_add_neg]

theorem sub_fin_inf (s t : Bool) (m : Nat) : (fin s m : Flt f) - inf t = inf (!t) := rfl

theorem sub_inf_fin (s t : Bool) (n : Nat) : (inf s : Flt f) - fin t n = inf s := rfl

theorem round_zero (s : Bool) (b : Nat) : f.round s 0 b = fin s 0 := by
  simp [Fmt.round, roundMag_zero]

/-- The key of a difference of finite data is the rounded difference of their magnitudes. -/
theorem key_sub_fin (s t : Bool) (m n : Nat) :
    key ((fin s m : Flt f) - fin t n) =
      key (f.round (decide (sval s m - sval t n < 0)) (sval s m - sval t n).natAbs 1) := by
  rw [sub_fin_fin]
  split_ifs with h
  · rw [h]; simp [round_zero, key, sval]
  · rfl

theorem good_sub_fin (s t : Bool) (m n : Nat) : good ((fin s m : Flt f) - fin t n) := by
  rw [sub_fin_fin]
  split_ifs with h
  · exact Nat.zero_le _
  · exact good_round _ _ _

theorem key_sub_fin_mono {s t s' t' : Bool} {m n m' n' : Nat}
    (h : sval s m - sval t n ≤ sval s' m' - sval t' n') :
    key ((fin s m : Flt f) - fin t n) ≤ key ((fin s' m' : Flt f) - fin t' n') := by
  rw [key_sub_fin, key_sub_fin]
  apply key_round_mono Nat.one_pos Nat.one_pos
  rw [sval_decide_natAbs, sval_decide_natAbs]
  simpa using h

/-- Subtracting a fixed finite datum is monotone. -/
theorem sub_mono_left (t : Bool) (n : Nat) {v1 v2 : Flt f} (h : le v1 v2 = true) :
    good (v1 - fin t n) ∧ good (v2 - fin t n) ∧ key (v1 - fin t n) ≤ key (v2 - fin t n) := by
  cases v1 with
  | nan => simp [le] at h
  | inf s1 =>
    cases v2 with
    | nan => simp [le] at h
    | inf s2 =>
      refine ⟨trivial, trivial, ?_⟩
      cases s1 <;> cases s2 <;> simp [le, sub_inf_fin, key, sval] at h ⊢
      omega
    | fin s2 m2 =>
      have g := good_sub_fin (f := f) s2 t m2 n
      refine ⟨trivial, g, ?_⟩
      have hs : s1 = true := by simpa [le] using h
      subst hs
      rw [sub_inf_fin]
      exact (key_bound g).1.trans' (by simp [key, sval])
  | fin s1 m1 =>
    have g1 := good_sub_fin (f := f) s1 t m1 n
    cases v2 with
    | nan => simp [le] at h
    | inf s2 =>
      refine ⟨g1, trivial, ?_⟩
      have hs : s2 = false := by simpa [le] using h
      subst hs
      rw [sub_inf_fin]
      exact (key_bound g1).2.trans (by simp [key, sval])
    | fin s2 m2 =>
      refine ⟨g1, good_sub_fin _ _ _ _, ?_⟩
      apply key_sub_fin_mono
      have : sval s1 m1 ≤ sval s2 m2 := by simpa [le] using h
      omega

/-- Subtracting from a fixed finite datum is antitone. -/
theorem sub_anti_right (s : Bool) (m : Nat) {y1 y2 : Flt f} (g1 : good y1) (g2 : good y2)
    (h : key y1 ≤ key y2) :
    good (fin s m - y1) ∧ good (fin s m - y2) ∧ key (fin s m - y2) ≤ key (fin s m - y1) := by
  cases y1 with
  | nan => exact absurd g1 id
  | inf t1 =>
    cases y2 with
    | nan => exact absurd g2 id
    | inf t2 =>
      refine ⟨trivial, trivial, ?_⟩
      cases t1 <;> cases t2 <;> simp [sub_fin_inf, key, sval] at h ⊢ <;> omega
    | fin t2 n2 =>
      have g := good_sub_fin (f := f) s t2 m n2
      have hn : n2 ≤ f.maxMag := g2
      refine ⟨trivial, g, ?_⟩
      cases t1
      · exfalso
        cases t2 <;> simp [key, sval] at h <;> omega
      · rw [sub_fin_inf]
        exact (key_bound g).2.trans (by simp [key, sval])
  | fin t1 n1 =>
    have gg1 := good_sub_fin (f := f) s t1 m n1
    have hn : n1 ≤ f.maxMag := g1
    cases y2 with
    | nan => exact absurd g2 id
    | inf t2 =>
      refine ⟨gg1, trivial, ?_⟩
      cases t2
      · rw [sub_fin_inf]
        exact (key_bound gg1).1.trans' (by simp [key, sval])
      · exfalso
        cases t1 <;> simp [key, sval] at h <;> omega
    | fin t2 n2 =>
      refine ⟨gg1, good_sub_fin _ _ _ _, ?_⟩
      apply key_sub_fin_mono
      have : sval t1 n1 ≤ sval t2 n2 := h
      omega

theorem mul_pos_fin (m : Nat) (t : Bool) (n : Nat) :
    (fin false m : Flt f) * fin t n = f.round t (m * n) (2 ^ f.scale) := by
  simp [mul_def, mul]

theorem mul_pos_inf {m : Nat} (hm : 0 < m) (t : Bool) :
    (fin false m : Flt f) * inf t = inf t := by
  simp [mul_def, mul, Nat.pos_iff_ne_zero.mp hm]

/-- Multiplying by a fixed finite positive datum is monotone. -/
theorem mul_pos_mono {m : Nat} (hm : 0 < m) {y1 y2 : Flt f} (g1 : good y1) (g2 : good y2)
    (h : key y1 ≤ key y2) :
    good (fin false m * y1) ∧ good (fin false m * y2) ∧
      key (fin false m * y1) ≤ key (fin false m * y2) := by
  have p : 0 < 2 ^ f.scale := Nat.pow_pos (by norm_num)
  cases y1 with
  | nan => exact absurd g1 id
  | inf t1 =>
    rw [mul_pos_inf hm]
    cases y2 with
    | nan => exact absurd g2 id
    | inf t2 => rw [mul_pos_inf hm]; exact ⟨trivial, trivial, h⟩
    | fin t2 n2 =>
      rw [mul_pos_fin]
      have g := good_round (f := f) t2 (m * n2) (2 ^ f.scale)
      have hn : n2 ≤ f.maxMag := g2
      refine ⟨trivial, g, ?_⟩
      cases t1
      · exfalso
        cases t2 <;> simp [key, sval] at h <;> omega
      · exact (key_bound g).1.trans' (by simp [key, sval])
  | fin t1 n1 =>
    rw [mul_pos_fin]
    have gg1 := good_round (f := f) t1 (m * n1) (2 ^ f.scale)
    have hn : n1 ≤ f.maxMag := g1
    cases y2 with
    | nan => exact absurd g2 id
    | inf t2 =>
      rw [mul_pos_inf hm]
      refine ⟨gg1, trivial, ?_⟩
      cases t2
      · exact (key_bound gg1).2.trans (by simp [key, sval])
      · exfalso
        cases t1 <;> simp [key, sval] at h <;> omega
    | fin t2 n2 =>
      rw [mul_pos_fin]
      refine ⟨gg1, good_round _ _ _, ?_⟩
      apply key_round_mono p p
      have h' : sval t1 n1 ≤ sval t2 n2 := h
      have e1 : sval t1 (m * n1) = m * sval t1 n1 := by cases t1 <;> simp [sval]
      have e2 : sval t2 (m * n2) = m * sval t2 n2 := by cases t2 <;> simp [sval]
      rw [e1, e2]
      have hm' : (0 : Int) ≤ m := by positivity
      have hp' : (0 : Int) ≤ ((2 ^ f.scale : Nat) : Int) := by positivity
      exact mul_le_mul_of_nonneg_right (mul_le_mul_of_nonneg_left h' hm') hp'

end Flt

namespace Flt

variable {f : Fmt}

theorem signPos_round (a b : Nat) : signPos (f.round false a b) = true := by
  unfold Fmt.round
  simp only
  split_ifs <;> rfl

/-- A difference `y - x` with `x < y`, one of them finite, has a clear sign bit. -/
theorem signPos_sub_of_lt {x y : Flt f} (h : lt x y = true)
    (hfin : isFinite x = true ∨ isFinite y = true) : signPos (y - x) = true := by
  cases x with
  | nan => simp [lt] at h
  | inf s =>
    cases y with
    | nan => simp [lt] at h
    | inf t => simp [isFinite] at hfin
    | fin t n =>
      have hs : s = true := by simpa [lt] using h
      subst hs
      rfl
  | fin s m =>
    cases y with
    | nan => simp [lt] at h
    | inf t =>
      have ht : t = false := by simpa [lt] using h
      subst ht
      rfl
    | fin t n =>
      have hlt : sval s m < sval t n := by simpa [lt] using h
      rw [sub_fin_fin]
      have h0 : ¬ (sval t n - sval s m = 0) := by omega
      have h1 : ¬ (sval t n - sval s m < 0) := by omega
      simp only [h0, h1, if_false, decide_False]
      exact signPos_round _ _

/-- A finite non-zero quotient of two data with clear sign bits is a positive finite datum. -/
theorem div_pos_of_signPos {x y : Flt f} (hx : signPos x = true) (hy : signPos y = true)
    (hq : isNonzeroFinite (x / y) = true) : ∃ m, 0 < m ∧ x / y = fin false m := by
  cases x with
  | nan => simp [signPos] at hx
  | inf s =>
    cases y with
    | nan => simp [signPos] at hy
    | inf t => simp [div_def, div, isNonzeroFinite] at hq
    | fin t n => simp [div_def, div, isNonzeroFinite] at hq
  | fin s m =>
    have hs : s = false := by simpa [signPos] using hx
    subst hs
    cases y with
    | nan => simp [signPos] at hy
    | inf t => simp [div_def, div, isNonzeroFinite] at hq
    | fin t n =>
      have ht : t = false := by simpa [signPos] using hy
      subst ht
      simp only [div_def, div] at hq ⊢
      by_cases hn : n = 0
      · simp only [hn, if_true] at hq
        split_ifs at hq <;> simp [isNonzeroFinite] at hq
      · simp only [hn, if_false, Bool.xor_false] at hq ⊢
        unfold Fmt.round at hq ⊢
        simp only at hq ⊢
        split_ifs at hq ⊢ with hle
        · exact ⟨_, by simpa [isNonzeroFinite] using hq, rfl⟩
        · simp [isNonzeroFinite] at hq

theorem le_of_not_flt {x y : Flt f} (hx : x ≠ nan) (hy : y ≠ nan) (h : lt x y = false) :
    le y x = true := by
  cases x with
  | nan => exact absurd rfl hx
  | inf s =>
    cases y with
    | nan => exact absurd rfl hy
    | inf t => cases s <;> cases t <;> simp [lt, le] at h ⊢
    | fin t n => cases s <;> simp [lt, le] at h ⊢
  | fin s m =>
    cases y with
    | nan => exact absurd rfl hy
    | inf t => cases t <;> simp [lt, le] at h ⊢
    | fin t n => simp only [lt, le, decide_eq_false_iff_not, decide_eq_true_eq] at h ⊢; omega

theorem le_of_flt {x y : Flt f} (h : lt x y = true) : le x y = true := by
  cases x <;> cases y <;> simp_all [lt, le]
  omega

theorem flt_of_flt_of_le {x y z : Flt f} (h1 : lt x y = true) (h2 : le y z = true) :
    lt x z = true := by
  cases x <;> cases y <;> cases z <;> simp_all [lt, le]
  omega

theorem ne_nan_of_le_left {x y : Flt f} (h : le x y = true) : x ≠ nan := by
  rintro rfl; simp [le] at h

theorem ne_nan_of_le_right {x y : Flt f} (h : le x y = true) : y ≠ nan := by
  rintro rfl; cases x <;> simp [le] at h

theorem sub_self_fin (s : Bool) (m : Nat) : (fin s m : Flt f) - fin s m = fin false 0 := by
  rw [sub_fin_fin]; simp

theorem mul_pos_zero (m : Nat) : (fin false m : Flt f) * fin false 0 = fin false 0 := by
  rw [mul_pos_fin]; simp [round_zero]

end Flt

/-! ## `read_ph` -/

theorem read_ph_eq (s : Gravity_pH) (v : F32) :
    read_ph s v =
      if Flt.lt s.pH.mid_cal v = true then
        s.pH.mid_solution_ph - slope_low s * (v - s.pH.mid_cal)
      else s.pH.mid_solution_ph - slope_high s * (v - s.pH.mid_cal) := rfl

/-- One branch formula `ph - k * (v - c)` with a finite positive slope `k`, finite `ph` and
`c`: it never yields NaN on a voltage that is not NaN, and it is antitone in the voltage. -/
theorem branch_antitone (sp sc : Bool) (mp mc : Nat) {m : Nat} (hm : 0 < m) {v1 v2 : F32}
    (h : Flt.le v1 v2 = true) :
    Flt.good (Flt.fin sp mp - Flt.fin false m * (v1 - Flt.fin sc mc)) ∧
    Flt.good (Flt.fin sp mp - Flt.fin false m * (v2 - Flt.fin sc mc)) ∧
    Flt.key (Flt.fin sp mp - Flt.fin false m * (v2 - Flt.fin sc mc)) ≤
      Flt.key (Flt.fin sp mp - Flt.fin false m * (v1 - Flt.fin sc mc)) := by
  obtain ⟨g1, g2, hd⟩ := Flt.sub_mono_left sc mc h
  obtain ⟨p1, p2, hp⟩ := Flt.mul_pos_mono hm g1 g2 hd
  exact Flt.sub_anti_right sp mp p1 p2 hp

/-- With finite positive slopes, a voltage above `c` gives at most what a voltage up to `c`
gives, whatever the two slopes are. -/
theorem branch_cross (sp sc : Bool) (mp mc : Nat) {m1 m2 : Nat} (hm1 : 0 < m1) (hm2 : 0 < m2)
    {v1 v2 : F32} (h1 : Flt.le v1 (Flt.fin sc mc) = true)
    (h2 : Flt.le (Flt.fin sc mc) v2 = true) :
    Flt.good (Flt.fin sp mp - Flt.fin false m2 * (v1 - Flt.fin sc mc)) ∧
    Flt.good (Flt.fin sp mp - Flt.fin false m1 * (v2 - Flt.fin sc mc)) ∧
    Flt.key (Flt.fin sp mp - Flt.fin false m1 * (v2 - Flt.fin sc mc)) ≤
      Flt.key (Flt.fin sp mp - Flt.fin false m2 * (v1 - Flt.fin sc mc)) := by
  obtain ⟨g1, g0, hd1⟩ := Flt.sub_mono_left sc mc h1
  obtain ⟨_, g2, hd2⟩ := Flt.sub_mono_left sc mc h2
  obtain ⟨p1, _, hp1⟩ := Flt.mul_pos_mono hm2 g1 g0 hd1
  obtain ⟨_, p2, hp2⟩ := Flt.mul_pos_mono hm1 g0 g2 hd2
  rw [Flt.sub_self_fin, Flt.mul_pos_zero] at hp1 hp2
  exact Flt.sub_anti_right sp mp p1 p2 (hp1.trans hp2)

/-- Monotonicity of `read_ph` when both slopes are finite and positive. -/
theorem read_ph_antitone_aux (s : Gravity_pH) (v1 v2 : F32)
    (hcal_low : Flt.lt s.pH.mid_cal s.pH.low_cal = true)
    (hcal_high : Flt.lt s.pH.high_cal s.pH.mid_cal = true)
    (href_low : Flt.lt s.pH.low_solution_ph s.pH.mid_solution_ph = true)
    (href_high : Flt.lt s.pH.mid_solution_ph s.pH.high_solution_ph = true)
    (hmid : s.pH.mid_cal.isFinite = true) (hph : s.pH.mid_solution_ph.isFinite = true)
    (hk1 : (slope_low s).isNonzeroFinite = true) (hk2 : (slope_high s).isNonzeroFinite = true)
    (h : Flt.le v1 v2 = true) :
    Flt.le (read_ph s v2) (read_ph s v1) = true := by
  obtain ⟨m1, hm1, e1⟩ := Flt.div_pos_of_signPos
    (Flt.signPos_sub_of_lt href_low (Or.inr hph)) (Flt.signPos_sub_of_lt hcal_low (Or.inl hmid)) hk1
  obtain ⟨m2, hm2, e2⟩ := Flt.div_pos_of_signPos
    (Flt.signPos_sub_of_lt href_high (Or.inl hph)) (Flt.signPos_sub_of_lt hcal_high (Or.inr hmid))
    hk2
  change slope_low s = _ at e1
  change slope_high s = _ at e2
  rw [read_ph_eq, read_ph_eq, e1, e2]
  generalize s.pH.mid_cal = c at hmid ⊢
  generalize s.pH.mid_solution_ph = p at hph ⊢
  cases c with
  | nan => simp [Flt.isFinite] at hmid
  | inf _ => simp [Flt.isFinite] at hmid
  | fin sc mc =>
  cases p with
  | nan => simp [Flt.isFinite] at hph
  | inf _ => simp [Flt.isFinite] at hph
  | fin sp mp =>
  have n1 := Flt.ne_nan_of_le_left h
  have n2 := Flt.ne_nan_of_le_right h
  by_cases c1 : Flt.lt (Flt.fin sc mc) v1 = true
  · have c2 : Flt.lt (Flt.fin sc mc) v2 = true := Flt.flt_of_flt_of_le c1 h
    rw [if_pos c1, if_pos c2]
    obtain ⟨g1, g2, hk⟩ := branch_antitone sp sc mp mc hm1 h
    exact (Flt.le_iff_key g2 g1).mpr hk
  · have l1 : Flt.le v1 (Flt.fin sc mc) = true :=
      Flt.le_of_not_flt (by simp) n1 (by simpa using c1)
    by_cases c2 : Flt.lt (Flt.fin sc mc) v2 = true
    · rw [if_neg c1, if_pos c2]
      obtain ⟨g1, g2, hk⟩ := branch_cross sp sc mp mc hm1 hm2 l1 (Flt.le_of_flt c2)
      exact (Flt.le_iff_key g2 g1).mpr hk
    · rw [if_neg c1, if_neg c2]
      obtain ⟨g1, g2, hk⟩ := branch_antitone sp sc mp mc hm2 h
      exact (Flt.le_iff_key g2 g1).mpr hk

/-- A datum strictly between two others is finite. -/
theorem Flt.isFinite_of_between {f : Fmt} {x y z : Flt f} (h1 : Flt.lt x y = true)
    (h2 : Flt.lt y z = true) : y.isFinite = true := by
  cases y with
  | nan => cases x <;> simp [Flt.lt] at h1
  | inf s =>
    cases s
    · cases z <;> simp [Flt.lt] at h2
    · cases x <;> simp [Flt.lt] at h1
  | fin s m => rfl

/-- C2 (as amended). For every calibration state with `low_cal > mid_cal > high_cal` and
reference values `low_solution_ph < mid_solution_ph < high_solution_ph` in which the two slopes
computed by `read_ph` are finite and non-zero (neither slope computation overflows, divides by
zero or underflows to zero), `read_ph` is monotonically non-increasing: for all voltages
`v1 <= v2`, `read_ph(v2) <= read_ph(v1)`, also when `v1` and `v2` fall in different
branches. -/
theorem read_ph_antitone (s : Gravity_pH) (v1 v2 : F32)
    (hcal_low : Flt.lt s.pH.mid_cal s.pH.low_cal = true)
    (hcal_high : Flt.lt s.pH.high_cal s.pH.mid_cal = true)
    (href_low : Flt.lt s.pH.low_solution_ph s.pH.mid_solution_ph = true)
    (href_high : Flt.lt s.pH.mid_solution_ph s.pH.high_solution_ph = true)
    (hk1 : (slope_low s).isNonzeroFinite = true) (hk2 : (slope_high s).isNonzeroFinite = true)
    (h : Flt.le v1 v2 = true) :
    Flt.le (read_ph s v2) (read_ph s v1) = true :=
  read_ph_antitone_aux s v1 v2 hcal_low hcal_high href_low href_high
    (Flt.isFinite_of_between hcal_high hcal_low) (Flt.isFinite_of_between href_low href_high)
    hk1 hk2 h

/-- Witness of `read_ph_antitone`: the initial calibration, voltages 1000 mV and 2000 mV
(one in each branch). -/
theorem read_ph_antitone_witness :
    Flt.le (read_ph (Gravity_pH.new .ARDUINO_SAMD_MKRWIFI1010 0) (intToFloat 2000))
      (read_ph (Gravity_pH.new .ARDUINO_SAMD_MKRWIFI1010 0) (intToFloat 1000)) = true :=
  read_ph_antitone (Gravity_pH.new .ARDUINO_SAMD_MKRWIFI1010 0) (intToFloat 1000)
    (intToFloat 2000) (by decide!) (by decide!) (by decide!) (by decide!) (by decide!)
    (by decide!) (by decide!)

/-- C2 fails as stated: in `overflowExample` the voltages and the reference values are
ordered as required and `0 <= FLT_MAX`, yet `read_ph(FLT_MAX)` is NaN (the slope of the first
branch underflows to 0 and is multiplied by an overflowed `+inf`), so
`read_ph(FLT_MAX) <= read_ph(0)` is false. -/
theorem read_ph_antitone_counterexample :
    Flt.lt overflowExample.pH.mid_cal overflowExample.pH.low_cal = true ∧
    Flt.lt overflowExample.pH.high_cal overflowExample.pH.mid_cal = true ∧
    Flt.lt overflowExample.pH.low_solution_ph overflowExample.pH.mid_solution_ph = true ∧
    Flt.lt overflowExample.pH.mid_solution_ph overflowExample.pH.high_solution_ph = true ∧
    Flt.le (intToFloat 0) FLT_MAX = true ∧
    read_ph overflowExample FLT_MAX = Flt.nan ∧
    read_ph overflowExample (intToFloat 0) = overflowExample.pH.mid_solution_ph ∧
    Flt.le (read_ph overflowExample FLT_MAX) (read_ph overflowExample (intToFloat 0)) = false := by
  decide!

namespace Flt

variable {f : Fmt}

theorem roundMag_one (f : Fmt) (b : Nat) (hb : 0 < b) : f.roundMag b b = 1 := by
  have h := roundMag_of_rep f (m := 1) (c := b) hb (by
    have : f.shift 1 = 0 := by simp [Fmt.shift, ilog2, ilog2Aux]
    rw [this]; rfl)
  simpa using h

/-- A magnitude of at least one unit does not round to zero. -/
theorem roundMag_pos (f : Fmt) {a b : Nat} (hb : 0 < b) (h : b ≤ a) : 0 < f.roundMag a b := by
  have := roundMag_mono f (a := b) (b := b) (c := a) (d := b) hb hb (Nat.mul_le_mul_right b h)
  rw [roundMag_one f b hb] at this
  omega

/-- A value of the format is left alone by rounding. -/
theorem round_of_rep (s : Bool) {m c : Nat} (hc : 0 < c) (hm : f.repMag m = true) :
    f.round s (m * c) c = fin s m := by
  simp only [Fmt.repMag, Bool.and_eq_true, decide_eq_true_eq] at hm
  unfold Fmt.round
  simp only [roundMag_of_rep f hc hm.1, hm.2, if_true]

/-- Subtracting a zero from a value of the format gives a datum that compares equal to it. -/
theorem eq_sub_zero {x : Flt f} (hx : x ≠ nan) (hr : isRep x = true) (t : Bool) :
    eq (x - fin t 0) x = true := by
  cases x with
  | nan => exact absurd rfl hx
  | inf s => simp [sub_inf_fin, eq]
  | fin s m =>
    rw [sub_fin_fin]
    have e0 : sval t 0 = 0 := by cases t <;> simp [sval]
    rw [e0, Int.sub_zero]
    split_ifs with h
    · have z : sval (s && !t) 0 = 0 := by cases (s && !t) <;> simp [sval]
      simp only [eq, z, h, decide_True]
    · have hm : m ≠ 0 := by
        rintro rfl
        cases s <;> simp [sval] at h
      have hs : decide (sval s m < 0) = s := by
        cases s
        · simp [sval]
        · simp [sval]; omega
      have ha : (sval s m).natAbs = m := by cases s <;> simp [sval]
      rw [hs, ha]
      have := round_of_rep (f := f) s (m := m) (c := 1) Nat.one_pos hr
      rw [Nat.mul_one] at this
      rw [this]
      simp [eq]

theorem mul_fin_zero (t : Bool) (k : Nat) : (fin t k : Flt f) * fin false 0 = fin t 0 := by
  simp [mul_def, mul, round_zero]

end Flt

/-- A branch formula of `read_ph` evaluated at `voltage = mid_cal` compares equal to
`mid_solution_ph`, provided its slope is finite. -/
theorem branch_at_mid {k c p : F32} (hk : k.isFinite = true) (hc : c.isFinite = true)
    (hp : p ≠ Flt.nan) (hr : p.isRep = true) : Flt.eq (p - k * (c - c)) p = true := by
  cases c with
  | nan => simp [Flt.isFinite] at hc
  | inf _ => simp [Flt.isFinite] at hc
  | fin sc mc =>
  cases k with
  | nan => simp [Flt.isFinite] at hk
  | inf _ => simp [Flt.isFinite] at hk
  | fin t m =>
  rw [Flt.sub_self_fin, Flt.mul_fin_zero]
  exact Flt.eq_sub_zero hp hr t

/-- C1 (as amended). For every calibration state in which `mid_cal` is finite,
`mid_solution_ph` is a value of the format other than NaN and the slope of the second branch,
`(high_solution_ph - mid_solution_ph) / (mid_cal - high_cal)`, is finite (no division by zero
and no overflow, so in particular `mid_cal != high_cal`), `read_ph(mid_cal)` compares equal to
`mid_solution_ph`; the formula of the first branch gives the same at `voltage = mid_cal`
whenever its own slope is finite, so the conversion is continuous at the branch boundary.
For a newly constructed object (`mid_cal = 1587`) the result is the `float` 6.86 on every
board. -/
theorem read_ph_at_mid_cal (s : Gravity_pH)
    (hmid : s.pH.mid_cal.isFinite = true)
    (hp : s.pH.mid_solution_ph ≠ Flt.nan) (hr : s.pH.mid_solution_ph.isRep = true)
    (hk2 : (slope_high s).isFinite = true) :
    Flt.eq (read_ph s s.pH.mid_cal) s.pH.mid_solution_ph = true ∧
    read_ph s s.pH.mid_cal =
      s.pH.mid_solution_ph
        - (s.pH.high_solution_ph - s.pH.mid_solution_ph) / (s.pH.mid_cal - s.pH.high_cal)
          * (s.pH.mid_cal - s.pH.mid_cal) ∧
    ((slope_low s).isFinite = true →
      Flt.eq (s.pH.mid_solution_ph
        - (s.pH.mid_solution_ph - s.pH.low_solution_ph) / (s.pH.low_cal - s.pH.mid_cal)
          * (s.pH.mid_cal - s.pH.mid_cal)) s.pH.mid_solution_ph = true) ∧
    (∀ (b : Board) (pin : Nat),
      read_ph (Gravity_pH.new b pin) (intToFloat 1587) = toFloat (lit b 686 100)) := by
  have hlt : Flt.lt s.pH.mid_cal s.pH.mid_cal = false := by
    cases h : s.pH.mid_cal <;> simp [Flt.lt]
  have e : read_ph s s.pH.mid_cal =
      s.pH.mid_solution_ph - slope_high s * (s.pH.mid_cal - s.pH.mid_cal) := by
    rw [read_ph_eq, hlt]; rfl
  refine ⟨?_, e, ?_, ?_⟩
  · rw [e]; exact branch_at_mid hk2 hmid hp hr
  · intro hk1
    exact branch_at_mid (k := slope_low s) hk1 hmid hp hr
  · intro b pin
    have hpin : read_ph (Gravity_pH.new b pin) (intToFloat 1587)
        = read_ph (Gravity_pH.new b 0) (intToFloat 1587) := rfl
    rw [hpin]
    rcases b with _ | _ | _ | _ | w
    · decide!
    · decide!
    · decide!
    · decide!
    · cases w <;> decide!

/-- Witness of `read_ph_at_mid_cal`: the factory-reset calibration. -/
theorem read_ph_at_mid_cal_witness :
    Flt.eq (read_ph factoryExample factoryExample.pH.mid_cal)
      factoryExample.pH.mid_solution_ph = true :=
  (read_ph_at_mid_cal factoryExample (by decide!) (by decide!) (by decide!) (by decide!)).1

/-- C1 fails as stated: after `cal_mid(1186)` on a new object (`mid_cal = high_cal = 1186`),
`read_ph(mid_cal)` is NaN, the product of an infinite slope and zero, and does not compare
equal to `mid_solution_ph`. -/
theorem read_ph_at_mid_cal_counterexample :
    midEqHighExample.pH.mid_cal = intToFloat 1186 ∧
    midEqHighExample.pH.high_cal = intToFloat 1186 ∧
    read_ph midEqHighExample midEqHighExample.pH.mid_cal = Flt.nan ∧
    Flt.eq (read_ph midEqHighExample midEqHighExample.pH.mid_cal)
      midEqHighExample.pH.mid_solution_ph = false := by
  decide!

/-- A difference `y - x` with `x < y` and `y` finite is `+inf` or a positive finite datum. -/
theorem Flt.sub_pos_of_lt {f : Fmt} {x y : Flt f} (h : Flt.lt x y = true)
    (hfin : Flt.isFinite x = true ∨ Flt.isFinite y = true) :
    y - x = Flt.inf false ∨ ∃ m, 0 < m ∧ y - x = Flt.fin false m := by
  cases x with
  | nan => simp [Flt.lt] at h
  | inf s =>
    cases y with
    | nan => simp [Flt.lt] at h
    | inf t => simp [Flt.isFinite] at hfin
    | fin t n =>
      have hs : s = true := by simpa [Flt.lt] using h
      subst hs
      exact Or.inl rfl
  | fin s m =>
    cases y with
    | nan => simp [Flt.lt] at h
    | inf t =>
      have ht : t = false := by simpa [Flt.lt] using h
      subst ht
      exact Or.inl rfl
    | fin t n =>
      have hlt : Flt.sval s m < Flt.sval t n := by simpa [Flt.lt] using h
      rw [Flt.sub_fin_fin]
      have h0 : ¬ (Flt.sval t n - Flt.sval s m = 0) := by omega
      have h1 : ¬ (Flt.sval t n - Flt.sval s m < 0) := by omega
      simp only [h0, h1, if_false, decide_False]
      unfold Fmt.round
      simp only
      split_ifs with hle
      · refine Or.inr ⟨_, ?_, rfl⟩
        apply Flt.roundMag_pos f Nat.one_pos
        omega
      · exact Or.inl rfl

/-- Above the subnormal range the rounded significand has all its `prec` bits. -/
theorem rne_ge_of_shift_pos (f : Fmt) {a b : Nat} (hb : 0 < b) (hk : 0 < f.shift (a / b)) :
    2 ^ (f.prec - 1) ≤ rne a (b * 2 ^ f.shift (a / b)) := by
  set P := f.prec - 1 with hP
  generalize hk2 : f.shift (a / b) = k at hk
  have p2 : 0 < 2 ^ k := Nat.pow_pos (by norm_num)
  have hlog : ilog2 (a / b) = k + P := by
    have : f.shift (a / b) = ilog2 (a / b) - P := rfl
    omega
  have hc0 : a / b ≠ 0 := by
    intro h0
    rw [h0] at hlog
    have : ilog2 0 = 0 := by simp [ilog2, ilog2Aux]
    omega
  have hT : 2 ^ (k + P) ≤ a / b := by
    rw [← hlog]; exact pow_ilog2_le hc0
  have hTd : 2 ^ (k + P) * b ≤ a := (Nat.le_div_iff_mul_le hb).mp hT
  have := rne_mono (a := 2 ^ P * (b * 2 ^ k)) (b := b * 2 ^ k) (c := a) (d := b * 2 ^ k)
    (Nat.mul_pos hb p2) (Nat.mul_pos hb p2) (by
      apply Nat.mul_le_mul_right
      calc 2 ^ P * (b * 2 ^ k) = 2 ^ (k + P) * b := by rw [pow_add]; ring
        _ ≤ a := hTd)
  rwa [rne_mul_self _ _ (Nat.mul_pos hb p2)] at this

/-- Relative accuracy of rounding: a rounded magnitude `K` of at least `2^j` units, with
`j < prec`, is within the fraction `2^-(j+1)` of itself from the exact magnitude `a / b`. -/
theorem roundMag_rel (f : Fmt) {a b j : Nat} (hb : 0 < b) (hj : j ≤ f.prec - 1)
    (hK : 2 ^ j ≤ f.roundMag a b) :
    f.roundMag a b * b * (2 ^ (j + 1) - 1) ≤ a * 2 ^ (j + 1) ∧
      a * 2 ^ (j + 1) ≤ f.roundMag a b * b * (2 ^ (j + 1) + 1) := by
  rw [roundMag_def] at hK ⊢
  have hR : 2 ^ j ≤ rne a (b * 2 ^ f.shift (a / b)) := by
    rcases Nat.eq_zero_or_pos (f.shift (a / b)) with h0 | hpos
    · rw [h0] at hK ⊢; simpa using hK
    · exact le_trans (Nat.pow_le_pow_right (by norm_num) hj) (rne_ge_of_shift_pos f hb hpos)
  have p2 : 0 < 2 ^ f.shift (a / b) := Nat.pow_pos (by norm_num)
  obtain ⟨hu, _⟩ := rne_upper a (b * 2 ^ f.shift (a / b)) (Nat.mul_pos hb p2)
  obtain ⟨hl, _⟩ := rne_lower a (b * 2 ^ f.shift (a / b)) (Nat.mul_pos hb p2)
  generalize rne a (b * 2 ^ f.shift (a / b)) = R at *
  have e : R * 2 ^ f.shift (a / b) * b = R * (b * 2 ^ f.shift (a / b)) := by ring
  rw [e]
  generalize b * 2 ^ f.shift (a / b) = D at *
  have hJ : 2 ^ (j + 1) = 2 * 2 ^ j := by rw [pow_succ]; ring
  rw [hJ]
  generalize 2 ^ j = J at *
  have hJD : J * D ≤ R * D := Nat.mul_le_mul_right D hR
  have hJ1 : 1 ≤ 2 * J := by
    have : 0 < J := by
      rcases Nat.eq_zero_or_pos J with h | h
      · exfalso
        subst h
        simp at hJ
      · exact h
    omega
  constructor
  · have : R * D * (2 * J - 1) + R * D = R * D * (2 * J) := by
      rw [← Nat.mul_succ]; congr 1; omega
    have h2 : R * D * (2 * J) ≤ a * (2 * J) + R * D := by nlinarith
    omega
  · nlinarith

/-- A good datum with the key of a finite non-zero datum within range is that datum. -/
theorem Flt.eq_of_key_eq {f : Fmt} {x : Flt f} {s : Bool} {m : Nat} (hx : Flt.good x)
    (hm : 0 < m) (hle : m ≤ f.maxMag) (h : Flt.key x = Flt.key (Flt.fin s m : Flt f)) :
    x = Flt.fin s m := by
  cases x with
  | nan => exact absurd hx id
  | inf t => cases t <;> cases s <;> simp [Flt.key, Flt.sval] at h <;> omega
  | fin t n =>
    cases t <;> cases s <;> simp [Flt.key, Flt.sval] at h <;> first | omega | (subst h; rfl)

/-- The interpolation identity behind the outer calibration points.  Let the slope `K` be the
rounded quotient of `au` by `bu`, with at least `j + 1` significant bits.  Then the rounded
product `K * bu` lies between the roundings of `au * (1 - 2^-(j+1))`-like and
`au * (1 + 2^-(j+1))`-like bounds; if subtracting either bound from `ph` gives the same datum
`T`, so does subtracting the rounded product. -/
theorem interp_exact (t sp st : Bool) (mp au bu j mt : Nat)
    (hbu : 0 < bu) (hj : j ≤ 23)
    (hK : 2 ^ j ≤ binary32.roundMag (au * 2 ^ 149) bu)
    (hmt : 0 < mt) (hmt2 : mt ≤ binary32.maxMag)
    (hlo : (Flt.fin sp mp : F32) - binary32.round t (au * 2 ^ (j + 1)) (2 ^ (j + 1) + 1)
      = Flt.fin st mt)
    (hhi : (Flt.fin sp mp : F32) - binary32.round t (au * 2 ^ (j + 1)) (2 ^ (j + 1) - 1)
      = Flt.fin st mt) :
    (Flt.fin sp mp : F32) - binary32.round t (binary32.roundMag (au * 2 ^ 149) bu * bu) (2 ^ 149)
      = Flt.fin st mt := by
  obtain ⟨r1, r2⟩ := roundMag_rel binary32 (a := au * 2 ^ 149) (b := bu) (j := j) hbu
    (by simpa [binary32] using hj) hK
  generalize binary32.roundMag (au * 2 ^ 149) bu = K at *
  have hJ : 2 ≤ 2 ^ (j + 1) := by
    have : 1 ≤ 2 ^ j := Nat.one_le_two_pow
    rw [pow_succ]; omega
  generalize 2 ^ (j + 1) = J at *
  have pc : 0 < 2 ^ 149 := Nat.pow_pos (by norm_num)
  have pJ1 : 0 < J + 1 := by omega
  -- the exact product `K * bu / 2^149` lies between `au * J / (J + 1)` and `au * J / (J - 1)`
  have c1 : au * J * 2 ^ 149 ≤ K * bu * (J + 1) := by
    calc au * J * 2 ^ 149 = au * 2 ^ 149 * J := by ring
      _ ≤ K * bu * (J + 1) := r2
  have c2 : K * bu * (J - 1) ≤ au * J * 2 ^ 149 := by
    calc K * bu * (J - 1) ≤ au * 2 ^ 149 * J := r1
      _ = au * J * 2 ^ 149 := by ring
  have gP := Flt.good_round (f := binary32) t (K * bu) (2 ^ 149)
  have gL := Flt.good_round (f := binary32) t (au * J) (J + 1)
  have pJm : 0 < J - 1 := by omega
  have gH := Flt.good_round (f := binary32) t (au * J) (J - 1)
  cases t
  · have k1 : Flt.key (binary32.round false (au * J) (J + 1)) ≤
        Flt.key (binary32.round false (K * bu) (2 ^ 149)) :=
      Flt.key_round_mono pJ1 pc (by simp only [Flt.sval_false]; exact_mod_cast c1)
    have k2 : Flt.key (binary32.round false (K * bu) (2 ^ 149)) ≤
        Flt.key (binary32.round false (au * J) (J - 1)) :=
      Flt.key_round_mono pc pJm (by simp only [Flt.sval_false]; exact_mod_cast c2)
    obtain ⟨_, g, a1⟩ := Flt.sub_anti_right sp mp gL gP k1
    obtain ⟨_, _, a2⟩ := Flt.sub_anti_right sp mp gP gH k2
    rw [hlo] at a1
    rw [hhi] at a2
    exact Flt.eq_of_key_eq g hmt hmt2 (le_antisymm a1 a2)
  · have k1 : Flt.key (binary32.round true (K * bu) (2 ^ 149)) ≤
        Flt.key (binary32.round true (au * J) (J + 1)) :=
      Flt.key_round_mono pc pJ1 (by
        simp only [Flt.sval_true]
        have : ((au * J * 2 ^ 149 : Nat) : Int) ≤ ((K * bu * (J + 1) : Nat) : Int) := by
          exact_mod_cast c1
        push_cast at this ⊢
        linarith)
    have k2 : Flt.key (binary32.round true (au * J) (J - 1)) ≤
        Flt.key (binary32.round true (K * bu) (2 ^ 149)) :=
      Flt.key_round_mono pJm pc (by
        simp only [Flt.sval_true]
        have : ((K * bu * (J - 1) : Nat) : Int) ≤ ((au * J * 2 ^ 149 : Nat) : Int) := by
          exact_mod_cast c2
        push_cast at this ⊢
        linarith)
    obtain ⟨g, _, a1⟩ := Flt.sub_anti_right sp mp gP gL k1
    obtain ⟨_, _, a2⟩ := Flt.sub_anti_right sp mp gH gP k2
    rw [hlo] at a1
    rw [hhi] at a2
    exact Flt.eq_of_key_eq g hmt hmt2 (le_antisymm a2 a1)

/-- Rounding commutes with the change of sign. -/
theorem Flt.neg_round {f : Fmt} (s : Bool) (a b : Nat) :
    Flt.neg (f.round s a b) = f.round (!s) a b := by
  unfold Fmt.round
  simp only
  split_ifs <;> rfl

/-- Swapping the operands of a difference of distinct finite data changes its sign. -/
theorem Flt.sub_swap {f : Fmt} (s t : Bool) (m n : Nat) (h : Flt.sval s m ≠ Flt.sval t n) :
    (Flt.fin t n : Flt f) - Flt.fin s m = Flt.neg (Flt.fin s m - Flt.fin t n) := by
  rw [Flt.sub_fin_fin, Flt.sub_fin_fin]
  have h1 : ¬ (Flt.sval t n - Flt.sval s m = 0) := by omega
  have h2 : ¬ (Flt.sval s m - Flt.sval t n = 0) := by omega
  rw [if_neg h1, if_neg h2, Flt.neg_round]
  have e1 : (Flt.sval t n - Flt.sval s m).natAbs = (Flt.sval s m - Flt.sval t n).natAbs := by
    omega
  have e2 : decide (Flt.sval t n - Flt.sval s m < 0)
      = !decide (Flt.sval s m - Flt.sval t n < 0) := by
    by_cases c : Flt.sval s m - Flt.sval t n < 0
    · have : ¬ (Flt.sval t n - Flt.sval s m < 0) := by omega
      simp [c, this]
    · have : Flt.sval t n - Flt.sval s m < 0 := by omega
      simp [c, this]
  rw [e1, e2]

theorem PH_init_board (b : Board) : PH.init b = PH.init .ESP32 := by
  rcases b with _ | _ | _ | _ | w
  · decide!
  · decide!
  · decide!
  · decide!
  · cases w <;> decide!

theorem hasSourceRefs_new (b : Board) (pin : Nat) : hasSourceRefs (Gravity_pH.new b pin) := by
  have e : (Gravity_pH.new b pin).pH = PH.init .ESP32 := PH_init_board b
  unfold hasSourceRefs
  rw [e]
  exact ⟨by decide!, by decide!, by decide!⟩

theorem hasSourceRefs_run (s : Gravity_pH) (op : CalOp) (h : hasSourceRefs s) :
    hasSourceRefs (op.run s) := by
  cases op <;> exact h

theorem hasSourceRefs_runCalOps (ops : List CalOp) (s : Gravity_pH) (h : hasSourceRefs s) :
    hasSourceRefs (runCalOps s ops) := by
  induction ops generalizing s with
  | nil => exact h
  | cons op ops ih => exact ih (op.run s) (hasSourceRefs_run s op h)

theorem binary32_scale : binary32.scale = 149 := rfl

theorem Flt.flt_asymm {f : Fmt} {x y : Flt f} (h : Flt.lt x y = true) : Flt.lt y x = false := by
  cases x <;> cases y <;> simp_all [Flt.lt]
  omega

/-- A finite non-zero quotient by a difference `y - x`, `x < y`, comes from finite `x` and
`y`: the difference is a positive finite datum within range and the quotient is the rounded
fraction. -/
theorem slope_shape {au : Nat} {x y : F32} (hlt : Flt.lt x y = true)
    (hfin : Flt.isFinite x = true ∨ Flt.isFinite y = true)
    (hk : ((Flt.fin false au : F32) / (y - x)).isNonzeroFinite = true) :
    ∃ bu, 0 < bu ∧ bu ≤ binary32.maxMag ∧ y - x = Flt.fin false bu ∧
      x.isFinite = true ∧ y.isFinite = true ∧
      (Flt.fin false au : F32) / (y - x)
        = Flt.fin false (binary32.roundMag (au * 2 ^ 149) bu) ∧
      0 < binary32.roundMag (au * 2 ^ 149) bu := by
  have hgood : x.isFinite = true → y.isFinite = true → Flt.good (y - x) := by
    intro hx hy
    cases x with
    | nan => simp [Flt.isFinite] at hx
    | inf _ => simp [Flt.isFinite] at hx
    | fin s m =>
      cases y with
      | nan => simp [Flt.isFinite] at hy
      | inf _ => simp [Flt.isFinite] at hy
      | fin t n => exact Flt.good_sub_fin _ _ _ _
  have hxy : x.isFinite = true ∧ y.isFinite = true := by
    cases x with
    | nan => simp [Flt.lt] at hlt
    | inf s =>
      cases y with
      | nan => simp [Flt.lt] at hlt
      | inf t => simp [Flt.isFinite] at hfin
      | fin t n =>
        exfalso
        have hs : s = true := by simpa [Flt.lt] using hlt
        subst hs
        simp [Flt.sub_fin_inf, Flt.div_def, Flt.div, Flt.isNonzeroFinite] at hk
    | fin s m =>
      cases y with
      | nan => simp [Flt.lt] at hlt
      | inf t =>
        exfalso
        have ht : t = false := by simpa [Flt.lt] using hlt
        subst ht
        simp [Flt.sub_inf_fin, Flt.div_def, Flt.div, Flt.isNonzeroFinite] at hk
      | fin t n => exact ⟨rfl, rfl⟩
  have g := hgood hxy.1 hxy.2
  rcases Flt.sub_pos_of_lt hlt hfin with e | ⟨bu, hbu, e⟩
  · exfalso
    rw [e] at hk
    simp [Flt.div_def, Flt.div, Flt.isNonzeroFinite] at hk
  · rw [e] at hk g ⊢
    have hbu0 : bu ≠ 0 := Nat.pos_iff_ne_zero.mp hbu
    have hd : (Flt.fin false au : F32) / Flt.fin false bu
        = binary32.round false (au * 2 ^ 149) bu := by
      simp [Flt.div_def, Flt.div, hbu0, binary32_scale]
    rw [hd] at hk ⊢
    unfold Fmt.round at hk ⊢
    simp only at hk ⊢
    split_ifs at hk ⊢ with hle
    · exact ⟨bu, hbu, g, rfl, hxy.1, hxy.2, rfl, by simpa [Flt.isNonzeroFinite] using hk⟩
    · simp [Flt.isNonzeroFinite] at hk

/-- The slope is never below `2^22` units: the numerator is at least the reference gap and the
denominator at most the largest finite magnitude. -/
theorem slope_bits {au bu : Nat} (hbu : 0 < bu) (hle : bu ≤ binary32.maxMag)
    (hc : 2 ^ 22 ≤ binary32.roundMag (au * 2 ^ 149) binary32.maxMag) :
    2 ^ 22 ≤ binary32.roundMag (au * 2 ^ 149) bu := by
  refine le_trans hc (roundMag_mono binary32 (by decide!) hbu ?_)
  exact Nat.mul_le_mul_left _ hle

/-- The reversed difference of two finite data `x < y` is the negated difference. -/
theorem Flt.sub_neg_of_sub_pos {f : Fmt} {x y : Flt f} {bu : Nat} (hx : x.isFinite = true)
    (hy : y.isFinite = true) (hlt : Flt.lt x y = true) (e : y - x = Flt.fin false bu) :
    x - y = Flt.fin true bu := by
  cases x with
  | nan => simp [Flt.isFinite] at hx
  | inf _ => simp [Flt.isFinite] at hx
  | fin s m =>
  cases y with
  | nan => simp [Flt.isFinite] at hy
  | inf _ => simp [Flt.isFinite] at hy
  | fin t n =>
  have hne : Flt.sval t n ≠ Flt.sval s m := by
    have : Flt.sval s m < Flt.sval t n := by simpa [Flt.lt] using hlt
    omega
  rw [Flt.sub_swap t s n m hne, e]
  rfl

/-- With the reference values of the source and a finite non-zero first slope,
`read_ph(low_cal)` is exactly `low_solution_ph`. -/
theorem read_ph_low_cal (s : Gravity_pH) (hrefs : hasSourceRefs s)
    (hcal_low : Flt.lt s.pH.mid_cal s.pH.low_cal = true)
    (hmid : s.pH.mid_cal.isFinite = true)
    (hk1 : (slope_low s).isNonzeroFinite = true) :
    read_ph s s.pH.low_cal = s.pH.low_solution_ph := by
  obtain ⟨em, el, _⟩ := hrefs
  have hA : toFloat (lit .ESP32 686 100) - toFloat (lit .ESP32 401 100)
      = (Flt.fin false 2033827894049519446320364813790609082991771648 : F32) := by decide!
  have hM : toFloat (lit .ESP32 686 100)
      = (Flt.fin false 4895459681260505129892690644956658398687920128 : F32) := by decide!
  have hL : toFloat (lit .ESP32 401 100)
      = (Flt.fin false 2861631787210985683572325831166049315696148480 : F32) := by decide!
  rw [read_ph_eq, if_pos hcal_low]
  unfold slope_low at hk1 ⊢
  rw [em, el, hA] at hk1
  rw [em, el, hA]
  obtain ⟨bu, hbu, hble, eB, _, _, eK, hK0⟩ := slope_shape hcal_low (Or.inl hmid) hk1
  rw [eK, eB, Flt.mul_pos_fin, binary32_scale, hM, hL]
  exact interp_exact false false false _ _ bu 22 _ hbu (by norm_num)
    (slope_bits hbu hble (by decide!)) (by norm_num) (by decide!) (by decide!) (by decide!)

/-- With the reference values of the source and a finite non-zero second slope,
`read_ph(high_cal)` is exactly `high_solution_ph`. -/
theorem read_ph_high_cal (s : Gravity_pH) (hrefs : hasSourceRefs s)
    (hcal_high : Flt.lt s.pH.high_cal s.pH.mid_cal = true)
    (hmid : s.pH.mid_cal.isFinite = true)
    (hk2 : (slope_high s).isNonzeroFinite = true) :
    read_ph s s.pH.high_cal = s.pH.high_solution_ph := by
  obtain ⟨em, _, eh⟩ := hrefs
  have hA : toFloat (lit .ESP32 918 100) - toFloat (lit .ESP32 686 100)
      = (Flt.fin false 1655607446040565553565458571376273033640542208 : F32) := by decide!
  have hM : toFloat (lit .ESP32 686 100)
      = (Flt.fin false 4895459681260505129892690644956658398687920128 : F32) := by decide!
  have hH : toFloat (lit .ESP32 918 100)
      = (Flt.fin false 6551067127301070683458149216332931432328462336 : F32) := by decide!
  have hnot : ¬ (Flt.lt s.pH.mid_cal s.pH.high_cal = true) := by
    rw [Flt.flt_asymm hcal_high]; exact Bool.noConfusion
  rw [read_ph_eq, if_neg hnot]
  unfold slope_high at hk2 ⊢
  rw [em, eh, hA] at hk2
  rw [em, eh, hA]
  obtain ⟨bu, hbu, hble, eB, hfh, hfm, eK, hK0⟩ := slope_shape hcal_high (Or.inr hmid) hk2
  have eD := Flt.sub_neg_of_sub_pos hfh hfm hcal_high eB
  rw [eK, eD, Flt.mul_pos_fin, binary32_scale, hM, hH]
  exact interp_exact true false false _ _ bu 22 _ hbu (by norm_num)
    (slope_bits hbu hble (by decide!)) (by norm_num) (by decide!) (by decide!) (by decide!)

/-- C7 (as amended). For every calibration state that carries the reference values of the
source (as every object reached from the constructor by calibration calls does, see
`hasSourceRefs_runCalOps`), with `low_cal > mid_cal > high_cal` and both slopes computed by
`read_ph` finite and non-zero: `read_ph(low_cal)` is exactly `low_solution_ph`,
`read_ph(high_cal)` is exactly `high_solution_ph`, and for every voltage `v` with
`high_cal <= v <= low_cal` the result lies between `low_solution_ph` and
`high_solution_ph`. -/
theorem read_ph_interpolates (s : Gravity_pH) (hrefs : hasSourceRefs s)
    (hcal_low : Flt.lt s.pH.mid_cal s.pH.low_cal = true)
    (hcal_high : Flt.lt s.pH.high_cal s.pH.mid_cal = true)
    (hk1 : (slope_low s).isNonzeroFinite = true)
    (hk2 : (slope_high s).isNonzeroFinite = true) :
    read_ph s s.pH.low_cal = s.pH.low_solution_ph ∧
    read_ph s s.pH.high_cal = s.pH.high_solution_ph ∧
    ∀ v : F32, Flt.le s.pH.high_cal v = true → Flt.le v s.pH.low_cal = true →
      Flt.le s.pH.low_solution_ph (read_ph s v) = true ∧
        Flt.le (read_ph s v) s.pH.high_solution_ph = true := by
  have hmid : s.pH.mid_cal.isFinite = true := Flt.isFinite_of_between hcal_high hcal_low
  have e1 := read_ph_low_cal s hrefs hcal_low hmid hk1
  have e2 := read_ph_high_cal s hrefs hcal_high hmid hk2
  refine ⟨e1, e2, ?_⟩
  intro v hv1 hv2
  have href_low : Flt.lt s.pH.low_solution_ph s.pH.mid_solution_ph = true := by
    rw [hrefs.1, hrefs.2.1]; decide!
  have href_high : Flt.lt s.pH.mid_solution_ph s.pH.high_solution_ph = true := by
    rw [hrefs.1, hrefs.2.2]; decide!
  have hph : s.pH.mid_solution_ph.isFinite = true := by
    rw [hrefs.1]; decide!
  constructor
  · rw [← e1]
    exact read_ph_antitone_aux s v s.pH.low_cal hcal_low hcal_high href_low href_high hmid hph
      hk1 hk2 hv2
  · rw [← e2]
    exact read_ph_antitone_aux s s.pH.high_cal v hcal_low hcal_high href_low href_high hmid hph
      hk1 hk2 hv1

/-- Witness of `read_ph_interpolates`: the factory-reset calibration, and a reading of
1500 mV between its outer points 1119 mV and 2033 mV. -/
theorem read_ph_interpolates_witness :
    read_ph factoryExample factoryExample.pH.low_cal = factoryExample.pH.low_solution_ph ∧
    read_ph factoryExample factoryExample.pH.high_cal = factoryExample.pH.high_solution_ph ∧
    Flt.le factoryExample.pH.low_solution_ph (read_ph factoryExample (intToFloat 1500)) = true ∧
    Flt.le (read_ph factoryExample (intToFloat 1500)) factoryExample.pH.high_solution_ph
      = true :=
  have h := read_ph_interpolates factoryExample
    (hasSourceRefs_runCalOps [CalOp.clear] _ (hasSourceRefs_new .ESP32 0))
    (by decide!) (by decide!) (by decide!) (by decide!)
  ⟨h.1, h.2.1, h.2.2 (intToFloat 1500) (by decide!) (by decide!)⟩

/-- C7 fails as stated: in `overflowExample` the calibration voltages are ordered
(`low_cal > mid_cal > high_cal`), yet `read_ph(low_cal)` is NaN, not `low_solution_ph`, and
does not lie between the reference values. -/
theorem read_ph_interpolates_counterexample :
    Flt.lt overflowExample.pH.mid_cal overflowExample.pH.low_cal = true ∧
    Flt.lt overflowExample.pH.high_cal overflowExample.pH.mid_cal = true ∧
    read_ph overflowExample overflowExample.pH.low_cal = Flt.nan ∧
    Flt.eq (read_ph overflowExample overflowExample.pH.low_cal)
      overflowExample.pH.low_solution_ph = false ∧
    Flt.le overflowExample.pH.low_solution_ph
      (read_ph overflowExample overflowExample.pH.low_cal) = false := by
  decide!

/-! ## `read_voltage` -/

theorem foldl_range_const {α : Type} (g : α → α) (n : Nat) (a : α) :
    (List.range n).foldl (fun acc _ => g acc) a = g^[n] a := by
  induction n with
  | zero => rfl
  | succ n ih =>
    rw [List.range_succ, List.foldl_append, ih, Function.iterate_succ_apply']
    rfl

/-- With all raw samples equal, `read_voltage` is the thousandfold repetition of one pass of
the loop, followed by the division. -/
theorem read_voltage_const (b : Board) (r : Int) :
    read_voltage b (fun _ => r)
      = (fun acc => read_voltage_step b acc r)^[1000] (intToFloat 0) / intToFloat 1000 := by
  unfold read_voltage
  simp only [volt_avg_len]
  rw [foldl_range_const (fun acc => read_voltage_step b acc r)]
  rfl

set_option maxHeartbeats 4000000 in
/-- C8 fails as stated: on the MKR WiFi 1010 (12-bit ADC), when all 1000 raw samples are 1 the
result of `read_voltage` is the `float` 0.805851936340332, while the conversion of the raw
value 1, `1 / 4095.0 * 3300.0` as a `float`, is 0.8058608174324036: the additions into the
`float` accumulator round, and the result is not the conversion of `r`. -/
theorem read_voltage_mean_counterexample :
    read_voltage .ARDUINO_SAMD_MKRWIFI1010 (fun _ => 1)
      = Flt.fin false 575075158402184477622322306312043686751371264 ∧
    toFloat (sample_mV .ARDUINO_SAMD_MKRWIFI1010 1)
      = Flt.fin false 575081496161268380101204311664107103434309632 ∧
    Flt.eq (read_voltage .ARDUINO_SAMD_MKRWIFI1010 (fun _ => 1))
      (toFloat (sample_mV .ARDUINO_SAMD_MKRWIFI1010 1)) = false := by
  have h1 : (fun acc => read_voltage_step .ARDUINO_SAMD_MKRWIFI1010 acc 1)^[100] (intToFloat 0)
      = Flt.fin false 57508210016246966476697695915403529482288496640 := by decide!
  have h2 : (fun acc => read_voltage_step .ARDUINO_SAMD_MKRWIFI1010 acc 1)^[100]
      (Flt.fin false 57508210016246966476697695915403529482288496640)
      = Flt.fin false 115016474477672640303549545970744248047490826240 := by decide!
  have h3 : (fun acc => read_voltage_step .ARDUINO_SAMD_MKRWIFI1010 acc 1)^[100]
      (Flt.fin false 115016474477672640303549545970744248047490826240)
      = Flt.fin false 172524738939098314130401396026084966612693155840 := by decide!
  have h4 : (fun acc => read_voltage_step .ARDUINO_SAMD_MKRWIFI1010 acc 1)^[100]
      (Flt.fin false 172524738939098314130401396026084966612693155840)
      = Flt.fin false 230032099610557445944694287358468346401525858304 := by decide!
  have h5 : (fun acc => read_voltage_step .ARDUINO_SAMD_MKRWIFI1010 acc 1)^[100]
      (Flt.fin false 230032099610557445944694287358468346401525858304)
      = Flt.fin false 287539275168408972768463054615065283308451528704 := by decide!
  have h6 : (fun acc => read_voltage_step .ARDUINO_SAMD_MKRWIFI1010 acc 1)^[100]
      (Flt.fin false 287539275168408972768463054615065283308451528704)
      = Flt.fin false 345046450726260499592231821871662220215377199104 := by decide!
  have h7 : (fun acc => read_voltage_step .ARDUINO_SAMD_MKRWIFI1010 acc 1)^[100]
      (Flt.fin false 345046450726260499592231821871662220215377199104)
      = Flt.fin false 402553626284112026416000589128259157122302869504 := by decide!
  have h8 : (fun acc => read_voltage_step .ARDUINO_SAMD_MKRWIFI1010 acc 1)^[100]
      (Flt.fin false 402553626284112026416000589128259157122302869504)
      = Flt.fin false 460060801841963553239769356384856094029228539904 := by decide!
  have h9 : (fun acc => read_voltage_step .ARDUINO_SAMD_MKRWIFI1010 acc 1)^[100]
      (Flt.fin false 460060801841963553239769356384856094029228539904)
      = Flt.fin false 517567977399815080063538123641453030936154210304 := by decide!
  have h10 : (fun acc => read_voltage_step .ARDUINO_SAMD_MKRWIFI1010 acc 1)^[100]
      (Flt.fin false 517567977399815080063538123641453030936154210304)
      = Flt.fin false 575075152957666606887306890898049967843079880704 := by decide!
  have hall : (fun acc => read_voltage_step .ARDUINO_SAMD_MKRWIFI1010 acc 1)^[1000]
      (intToFloat 0) = Flt.fin false 575075152957666606887306890898049967843079880704 := by
    have e : (1000 : Nat) = 100 + 100 + 100 + 100 + 100 + 100 + 100 + 100 + 100 + 100 := by
      norm_num
    rw [e]
    simp only [Function.iterate_add_apply, h1, h2, h3, h4, h5, h6, h7, h8, h9, h10]
  have hdiv : (Flt.fin false 575075152957666606887306890898049967843079880704 : F32)
      / intToFloat 1000 = Flt.fin false 575075158402184477622322306312043686751371264 := by
    decide!
  have hr : read_voltage .ARDUINO_SAMD_MKRWIFI1010 (fun _ => 1)
      = Flt.fin false 575075158402184477622322306312043686751371264 := by
    rw [read_voltage_const, hall, hdiv]
  have hs : toFloat (sample_mV .ARDUINO_SAMD_MKRWIFI1010 1)
      = (Flt.fin false 575081496161268380101204311664107103434309632 : F32) := by decide!
  refine ⟨hr, hs, ?_⟩
  rw [hr, hs]
  decide

/-! ### Interval arithmetic on whole-number bounds -/

theorem ilog2_lt_of_lt_pow {n k : Nat} (hn : n ≠ 0) (h : n < 2 ^ k) : ilog2 n < k := by
  rw [ilog2_eq]; exact Nat.log_lt_of_lt_pow hn h

/-- A whole number below `2^prec` is a magnitude of the format. -/
theorem rep_int (f : Fmt) (hp : 0 < f.prec) {n : Nat} (hn : n < 2 ^ f.prec) :
    (n * 2 ^ f.scale) % 2 ^ f.shift (n * 2 ^ f.scale) = 0 := by
  rcases Nat.eq_zero_or_pos n with h0 | hpos
  · subst h0; simp
  · have pc : 0 < 2 ^ f.scale := Nat.pow_pos (by norm_num)
    have hlt : n * 2 ^ f.scale < 2 ^ (f.prec + f.scale) := by
      rw [pow_add]; exact Nat.mul_lt_mul_of_pos_right hn pc
    have hl := ilog2_lt_of_lt_pow (Nat.pos_iff_ne_zero.mp (Nat.mul_pos hpos pc)) hlt
    have hs : f.shift (n * 2 ^ f.scale) ≤ f.scale := by
      have : f.shift (n * 2 ^ f.scale) = ilog2 (n * 2 ^ f.scale) - (f.prec - 1) := rfl
      omega
    apply Nat.mod_eq_zero_of_dvd
    exact Dvd.dvd.mul_left (Nat.pow_dvd_pow 2 hs) n

/-- A rounding whose exact value lies between two magnitudes of the format lies between
them. -/
theorem round_within (f : Fmt) {a b L U : Nat} (hb : 0 < b) (hL : L * b ≤ a) (hU : a ≤ U * b)
    (rL : L % 2 ^ f.shift L = 0) (rU : U % 2 ^ f.shift U = 0) (hmax : U ≤ f.maxMag) :
    ∃ m, f.round false a b = Flt.fin false m ∧ L ≤ m ∧ m ≤ U := by
  have h1 : L ≤ f.roundMag a b := by
    have := roundMag_mono f (a := L * b) (b := b) (c := a) (d := b) hb hb
      (Nat.mul_le_mul_right b hL)
    rwa [roundMag_of_rep f hb rL] at this
  have h2 : f.roundMag a b ≤ U := by
    have := roundMag_mono f (a := a) (b := b) (c := U * b) (d := b) hb hb
      (Nat.mul_le_mul_right b hU)
    rwa [roundMag_of_rep f hb rU] at this
  refine ⟨f.roundMag a b, ?_, h1, h2⟩
  unfold Fmt.round
  simp only [le_trans h2 hmax, if_true]

namespace Flt

variable {f : Fmt}

theorem Wide.prec_pos (hf : f.Wide) : 0 < f.prec := lt_of_lt_of_le (by norm_num) hf.prec_ge

theorem Wide.lt_pow (hf : f.Wide) {n : Nat} (hn : n < 2 ^ 24) : n < 2 ^ f.prec :=
  lt_of_lt_of_le hn (Nat.pow_le_pow_right (by norm_num) hf.prec_ge)

theorem Wide.le_max (hf : f.Wide) {n : Nat} (hn : n < 2 ^ 24) :
    n * 2 ^ f.scale ≤ f.maxMag :=
  le_trans (Nat.mul_le_mul_right _ hn.le) hf.max_ge

/-- Rounding a fraction whose value lies between two whole numbers below `2^24`. -/
theorem inRange_round (hf : f.Wide) {a b L U : Nat} (hb : 0 < b) (hU24 : U < 2 ^ 24)
    (hLU : L ≤ U) (hL : L * 2 ^ f.scale * b ≤ a) (hU : a ≤ U * 2 ^ f.scale * b) :
    inRange (f.round false a b) L U :=
  round_within f hb hL hU (rep_int f (Wide.prec_pos hf) (Wide.lt_pow hf (lt_of_le_of_lt hLU hU24)))
    (rep_int f (Wide.prec_pos hf) (Wide.lt_pow hf hU24)) (Wide.le_max hf hU24)

theorem inRange_mono {x : Flt f} {L U L' U' : Nat} (h : inRange x L U) (hL : L' ≤ L)
    (hU : U ≤ U') : inRange x L' U' := by
  obtain ⟨m, e, h1, h2⟩ := h
  exact ⟨m, e, le_trans (Nat.mul_le_mul_right _ hL) h1, le_trans h2 (Nat.mul_le_mul_right _ hU)⟩

theorem inRange_le {x : Flt f} {L U : Nat} (h : inRange x L U) : L ≤ U := by
  obtain ⟨m, _, h1, h2⟩ := h
  have pc : 0 < 2 ^ f.scale := Nat.pow_pos (by norm_num)
  exact Nat.le_of_mul_le_mul_right (le_trans h1 h2) pc

/-- A whole number below `2^24` converts exactly. -/
theorem inRange_ofInt (hf : f.Wide) {n : Nat} (hn : n < 2 ^ 24) :
    inRange (ofInt f (n : Int)) n n := by
  unfold ofInt
  split_ifs with h0
  · have : n = 0 := by exact_mod_cast h0
    subst this
    exact ⟨0, rfl, by simp, by simp⟩
  · have hneg : ¬ ((n : Int) < 0) := by omega
    simp only [hneg, decide_False, Int.natAbs_ofNat]
    exact inRange_round hf Nat.one_pos hn le_rfl (by simp) (by simp)

theorem inRange_ofFrac (hf : f.Wide) {n : Nat} (hn : n < 2 ^ 24) :
    inRange (ofFrac f n 1) n n := by
  unfold ofFrac
  exact inRange_round hf Nat.one_pos hn le_rfl (by simp) (by simp)

theorem inRange_add (hf : f.Wide) {x y : Flt f} {L U L' U' : Nat} (hx : inRange x L U)
    (hy : inRange y L' U') (hU : U + U' < 2 ^ 24) : inRange (x + y) (L + L') (U + U') := by
  obtain ⟨m, rfl, h1, h2⟩ := hx
  obtain ⟨n, rfl, h3, h4⟩ := hy
  have hLU : L + L' ≤ U + U' := Nat.add_le_add (inRange_le ⟨m, rfl, h1, h2⟩)
    (inRange_le ⟨n, rfl, h3, h4⟩)
  simp only [add_def, add, sval_false]
  split_ifs with h0
  · have hm : m = 0 := by omega
    have hn : n = 0 := by omega
    subst hm hn
    refine ⟨0, rfl, ?_, Nat.zero_le _⟩
    have : (L + L') * 2 ^ f.scale = L * 2 ^ f.scale + L' * 2 ^ f.scale := by ring
    omega
  · have hneg : ¬ ((m : Int) + n < 0) := by omega
    have habs : ((m : Int) + n).natAbs = m + n := by omega
    simp only [hneg, decide_False, habs]
    apply inRange_round hf Nat.one_pos hU hLU
    · have : (L + L') * 2 ^ f.scale * 1 = L * 2 ^ f.scale + L' * 2 ^ f.scale := by ring
      omega
    · have : (U + U') * 2 ^ f.scale * 1 = U * 2 ^ f.scale + U' * 2 ^ f.scale := by ring
      omega

theorem inRange_mul (hf : f.Wide) {x y : Flt f} {L U L' U' : Nat} (hx : inRange x L U)
    (hy : inRange y L' U') (hU : U * U' < 2 ^ 24) : inRange (x * y) (L * L') (U * U') := by
  obtain ⟨m, rfl, h1, h2⟩ := hx
  obtain ⟨n, rfl, h3, h4⟩ := hy
  have hLU : L * L' ≤ U * U' := Nat.mul_le_mul (inRange_le ⟨m, rfl, h1, h2⟩)
    (inRange_le ⟨n, rfl, h3, h4⟩)
  rw [mul_pos_fin]
  apply inRange_round hf (Nat.pow_pos (by norm_num)) hU hLU
  · calc L * L' * 2 ^ f.scale * 2 ^ f.scale
        = (L * 2 ^ f.scale) * (L' * 2 ^ f.scale) := by ring
      _ ≤ m * n := Nat.mul_le_mul h1 h3
  · calc m * n ≤ (U * 2 ^ f.scale) * (U' * 2 ^ f.scale) := Nat.mul_le_mul h2 h4
      _ = U * U' * 2 ^ f.scale * 2 ^ f.scale := by ring

/-- Division by an exactly known whole number `D`. -/
theorem inRange_div (hf : f.Wide) {x y : Flt f} {L U D : Nat} (hx : inRange x (D * L) (D * U))
    (hy : inRange y D D) (hD : 0 < D) (hU : U < 2 ^ 24) : inRange (x / y) L U := by
  obtain ⟨m, rfl, h1, h2⟩ := hx
  obtain ⟨n, rfl, h3, h4⟩ := hy
  have hn : n = D * 2 ^ f.scale := le_antisymm h4 h3
  have pc : 0 < 2 ^ f.scale := Nat.pow_pos (by norm_num)
  have hn0 : n ≠ 0 := by
    rw [hn]; exact Nat.pos_iff_ne_zero.mp (Nat.mul_pos hD pc)
  have hLU : L ≤ U := by
    have := inRange_le ⟨m, rfl, h1, h2⟩
    exact Nat.le_of_mul_le_mul_left this hD
  simp only [div_def, div, hn0, if_false, Bool.xor_false]
  apply inRange_round hf (Nat.pos_iff_ne_zero.mpr hn0) hU hLU
  · rw [hn]
    calc L * 2 ^ f.scale * (D * 2 ^ f.scale) = D * L * 2 ^ f.scale * 2 ^ f.scale := by ring
      _ ≤ m * 2 ^ f.scale := Nat.mul_le_mul_right _ h1
  · rw [hn]
    calc m * 2 ^ f.scale ≤ D * U * 2 ^ f.scale * 2 ^ f.scale := Nat.mul_le_mul_right _ h2
      _ = U * 2 ^ f.scale * (D * 2 ^ f.scale) := by ring

/-- Conversion between two wide formats keeps whole-number bounds. -/
theorem inRange_cast {g : Fmt} (hg : g.Wide) {x : Flt f} {L U : Nat} (hx : inRange x L U)
    (hU : U < 2 ^ 24) : inRange (cast g x) L U := by
  obtain ⟨m, rfl, h1, h2⟩ := hx
  have hLU : L ≤ U := inRange_le ⟨m, rfl, h1, h2⟩
  simp only [cast]
  apply inRange_round hg (Nat.pow_pos (by norm_num)) hU hLU
  · calc L * 2 ^ g.scale * 2 ^ f.scale = L * 2 ^ f.scale * 2 ^ g.scale := by ring
      _ ≤ m * 2 ^ g.scale := Nat.mul_le_mul_right _ h1
  · calc m * 2 ^ g.scale ≤ U * 2 ^ f.scale * 2 ^ g.scale := Nat.mul_le_mul_right _ h2
      _ = U * 2 ^ g.scale * 2 ^ f.scale := by ring

/-- Bounds that coincide determine the datum. -/
theorem eq_of_inRange {x y : Flt f} {n : Nat} (hx : inRange x n n) (hy : inRange y n n) :
    x = y := by
  obtain ⟨m, rfl, h1, h2⟩ := hx
  obtain ⟨k, rfl, h3, h4⟩ := hy
  have : m = k := by omega
  rw [this]

theorem le_of_inRange {x y : Flt f} {L U : Nat} (hx : inRange x L U) : 
    (inRange y L L → le y x = true) ∧ (inRange y U U → le x y = true) := by
  obtain ⟨m, rfl, h1, h2⟩ := hx
  constructor
  · rintro ⟨k, rfl, h3, h4⟩
    simp only [le, sval_false, decide_eq_true_eq]
    omega
  · rintro ⟨k, rfl, h3, h4⟩
    simp only [le, sval_false, decide_eq_true_eq]
    omega

end Flt

theorem binary32_wide : binary32.Wide := ⟨by decide, by decide!⟩

theorem binary64_wide : binary64.Wide := ⟨by decide, by decide!⟩

theorem Board.dbl_wide (b : Board) : b.dbl.Wide := by
  rcases b with _ | _ | _ | _ | w
  · exact binary64_wide
  · exact binary64_wide
  · exact binary32_wide
  · exact binary64_wide
  · cases w
    · exact binary32_wide
    · exact binary64_wide

/-- The 12-bit formula `raw / 4095.0 * 3300.0` maps the ADC range into `[0, 3300]`. -/
theorem sample12_inRange {g : Fmt} (hg : g.Wide) {n : Nat} (hn : n ≤ 4095) :
    Flt.inRange (Flt.ofInt g (n : Int) / Flt.ofFrac g 4095 1 * Flt.ofFrac g 3300 1) 0 3300 := by
  have t1 : Flt.inRange (Flt.ofInt g (n : Int)) (4095 * 0) (4095 * 1) :=
    Flt.inRange_mono (Flt.inRange_ofInt hg (n := n) (by omega)) (by omega) (by omega)
  have t2 := Flt.inRange_div hg t1 (Flt.inRange_ofFrac hg (n := 4095) (by norm_num))
    (by norm_num) (by norm_num)
  exact Flt.inRange_mul hg t2 (Flt.inRange_ofFrac hg (n := 3300) (by norm_num)) (by norm_num)

/-- The 10-bit formula `raw / 1024.0 * 5000.0` maps the ADC range into `[0, 5000]`. -/
theorem sample10_inRange {g : Fmt} (hg : g.Wide) {n : Nat} (hn : n ≤ 1023) :
    Flt.inRange (Flt.ofInt g (n : Int) / Flt.ofFrac g 1024 1 * Flt.ofFrac g 5000 1) 0 5000 := by
  have t1 : Flt.inRange (Flt.ofInt g (n : Int)) (1024 * 0) (1024 * 1) :=
    Flt.inRange_mono (Flt.inRange_ofInt hg (n := n) (by omega)) (by omega) (by omega)
  have t2 := Flt.inRange_div hg t1 (Flt.inRange_ofFrac hg (n := 1024) (by norm_num))
    (by norm_num) (by norm_num)
  exact Flt.inRange_mul hg t2 (Flt.inRange_ofFrac hg (n := 5000) (by norm_num)) (by norm_num)

/-- A raw sample within the ADC range converts to a millivolt value within the range of the
board. -/
theorem sample_mV_inRange (b : Board) (raw : Int) (h0 : 0 ≤ raw) (h1 : raw < 2 ^ b.adcBits) :
    Flt.inRange (sample_mV b raw) b.mVmin b.mVmax := by
  obtain ⟨n, rfl⟩ := Int.eq_ofNat_of_zero_le h0
  rcases b with _ | _ | _ | _ | w
  · have hn : n ≤ 4095 := by simp [Board.adcBits] at h1; omega
    have t := sample12_inRange binary64_wide hn
    have t' := Flt.inRange_mono (Flt.inRange_add binary64_wide t
      (Flt.inRange_ofInt binary64_wide (n := 130) (by norm_num)) (by norm_num))
      (show 130 ≤ 0 + 130 by norm_num) (show 3300 + 130 ≤ 3430 by norm_num)
    simp only [sample_mV, intToDbl, lit, Board.dbl, Board.mVmin, Board.mVmax]
    exact t'
  · have hn : n ≤ 4095 := by simp [Board.adcBits] at h1; omega
    simp only [sample_mV, intToDbl, lit, Board.dbl, Board.mVmin, Board.mVmax]
    exact sample12_inRange binary64_wide hn
  · have hn : n ≤ 1023 := by simp [Board.adcBits] at h1; omega
    simp only [sample_mV, intToDbl, lit, Board.dbl, Board.mVmin, Board.mVmax]
    exact sample10_inRange binary32_wide hn
  · have hn : n ≤ 4095 := by simp [Board.adcBits] at h1; omega
    simp only [sample_mV, intToDbl, lit, Board.dbl, Board.mVmin, Board.mVmax]
    exact sample12_inRange binary64_wide hn
  · have hn : n ≤ 1023 := by simp [Board.adcBits] at h1; omega
    simp only [sample_mV, intToDbl, lit, Board.mVmin, Board.mVmax]
    exact sample10_inRange (Board.dbl_wide (.other w)) hn

/-- One pass of the loop adds the bounds of the sample to the bounds of the accumulator. -/
theorem read_voltage_step_inRange (b : Board) {acc : F32} {raw : Int} {L U lo hi : Nat}
    (hacc : Flt.inRange acc L U) (hs : Flt.inRange (sample_mV b raw) lo hi)
    (hU : U + hi < 2 ^ 24) : Flt.inRange (read_voltage_step b acc raw) (L + lo) (U + hi) := by
  unfold read_voltage_step toFloat toDbl
  have t1 := Flt.inRange_cast (Board.dbl_wide b) hacc (by omega)
  have t2 := Flt.inRange_add (Board.dbl_wide b) t1 hs hU
  exact Flt.inRange_cast binary32_wide t2 hU

/-- The accumulator after `n` passes lies between `n` times the bounds of the samples. -/
theorem read_voltage_loop_inRange (b : Board) (analogRead : Nat → Int) (lo hi : Nat)
    (hhi : 1000 * hi < 2 ^ 24) (n : Nat) (hn : n ≤ 1000)
    (hs : ∀ i, i < n → Flt.inRange (sample_mV b (analogRead i)) lo hi) :
    Flt.inRange ((List.range n).foldl
      (fun acc i => read_voltage_step b acc (analogRead i)) (intToFloat 0)) (n * lo) (n * hi) := by
  induction n with
  | zero =>
    simp only [List.range_zero, List.foldl_nil, Nat.zero_mul]
    exact Flt.inRange_ofInt binary32_wide (n := 0) (by norm_num)
  | succ n ih =>
    rw [List.range_succ, List.foldl_append]
    simp only [List.foldl_cons, List.foldl_nil]
    have h := ih (by omega) (fun i hi => hs i (by omega))
    have hle : n * hi + hi ≤ 1000 * hi := by
      calc n * hi + hi = (n + 1) * hi := by ring
        _ ≤ 1000 * hi := Nat.mul_le_mul_right hi hn
    have := read_voltage_step_inRange b h (hs n (by omega)) (by omega)
    rwa [show (n + 1) * lo = n * lo + lo by ring, show (n + 1) * hi = n * hi + hi by ring]

/-- The result of `read_voltage` lies between the bounds of the 1000 samples. -/
theorem read_voltage_inRange (b : Board) (analogRead : Nat → Int) (lo hi : Nat)
    (hhi : 1000 * hi < 2 ^ 24)
    (hs : ∀ i, i < 1000 → Flt.inRange (sample_mV b (analogRead i)) lo hi) :
    Flt.inRange (read_voltage b analogRead) lo hi := by
  unfold read_voltage
  simp only [volt_avg_len]
  have h := read_voltage_loop_inRange b analogRead lo hi hhi 1000 le_rfl hs
  exact Flt.inRange_div binary32_wide h
    (Flt.inRange_ofInt binary32_wide (n := 1000) (by norm_num)) (by norm_num) (by omega)

theorem read_voltage_loop_congr (b : Board) (f g : Nat → Int) (n : Nat)
    (h : ∀ i, i < n → f i = g i) :
    (List.range n).foldl (fun acc i => read_voltage_step b acc (f i)) (intToFloat 0)
      = (List.range n).foldl (fun acc i => read_voltage_step b acc (g i)) (intToFloat 0) := by
  induction n with
  | zero => rfl
  | succ n ih =>
    rw [List.range_succ, List.foldl_append, List.foldl_append, ih (fun i hi => h i (by omega))]
    simp only [List.foldl_cons, List.foldl_nil, h n (by omega)]

theorem sample_mV_zero (b : Board) : sample_mV b 0 = intToDbl b b.mVmin := by
  rcases b with _ | _ | _ | _ | w
  · decide!
  · decide!
  · decide!
  · decide!
  · cases w <;> decide!

theorem sample_mV_full (b : Board) (h : b.adcBits = 12) :
    sample_mV b 4095 = intToDbl b b.mVmax := by
  rcases b with _ | _ | _ | _ | w
  · decide!
  · decide!
  · simp [Board.adcBits] at h
  · decide!
  · simp [Board.adcBits] at h

theorem Board.mVmax_lt (b : Board) : 1000 * b.mVmax < 2 ^ 24 := by
  rcases b with _ | _ | _ | _ | w <;> simp [Board.mVmax]

/-- When every sample converts to the same whole number of millivolts, `read_voltage` returns
exactly that number. -/
theorem read_voltage_exact (b : Board) (analogRead : Nat → Int) (v : Nat)
    (hv : 1000 * v < 2 ^ 24)
    (h : ∀ i, i < 1000 → sample_mV b (analogRead i) = intToDbl b v) :
    read_voltage b analogRead = intToFloat v := by
  have hs : ∀ i, i < 1000 → Flt.inRange (sample_mV b (analogRead i)) v v := by
    intro i hi
    rw [h i hi]
    exact Flt.inRange_ofInt (Board.dbl_wide b) (by omega)
  exact Flt.eq_of_inRange (read_voltage_inRange b analogRead v v hv hs)
    (Flt.inRange_ofInt binary32_wide (by omega))

/-- C8 (as amended). `read_voltage` performs exactly 1000 reads (numbers 0 to 999), adds the
per-sample millivolt value of each, `raw / 4095.0 * 3300.0` on the 12-bit boards (plus 130 on
the ESP32) and `raw / 1024.0 * 5000.0` on the 10-bit and default boards, into a `float`
accumulator that is rounded after every addition, and divides the sum by 1000.  For raw
samples within the ADC range the result lies within `[0, 3300]` mV on the 12-bit boards,
`[130, 3430]` on the ESP32 and `[0, 5000]` on the 10-bit boards.  Whenever all 1000 per-sample
values lie between two whole numbers of millivolts, so does the result; hence when all samples
convert to the same whole number of millivolts the result is exactly that number: the lower
bound when all samples are 0, the upper bound when all samples are 4095 on a 12-bit board. -/
theorem read_voltage_range (b : Board) (analogRead : Nat → Int)
    (hrange : ∀ i, i < 1000 → 0 ≤ analogRead i ∧ analogRead i < 2 ^ b.adcBits) :
    read_voltage b analogRead
      = (List.range 1000).foldl
          (fun acc i => toFloat (toDbl b acc + sample_mV b (analogRead i))) (intToFloat 0)
        / intToFloat 1000 ∧
    (∀ other : Nat → Int, (∀ i, i < 1000 → other i = analogRead i) →
      read_voltage b other = read_voltage b analogRead) ∧
    Flt.le (intToFloat b.mVmin) (read_voltage b analogRead) = true ∧
    Flt.le (read_voltage b analogRead) (intToFloat b.mVmax) = true ∧
    ((∀ i, i < 1000 → analogRead i = 0) → read_voltage b analogRead = intToFloat b.mVmin) ∧
    (b.adcBits = 12 → (∀ i, i < 1000 → analogRead i = 4095) →
      read_voltage b analogRead = intToFloat b.mVmax) ∧
    (∀ lo hi : Nat, 1000 * hi < 2 ^ 24 →
      (∀ i, i < 1000 → Flt.inRange (sample_mV b (analogRead i)) lo hi) →
      Flt.inRange (read_voltage b analogRead) lo hi) ∧
    (∀ v : Nat, 1000 * v < 2 ^ 24 →
      (∀ i, i < 1000 → sample_mV b (analogRead i) = intToDbl b v) →
      read_voltage b analogRead = intToFloat v) := by
  have hs : ∀ i, i < 1000 → Flt.inRange (sample_mV b (analogRead i)) b.mVmin b.mVmax :=
    fun i hi => sample_mV_inRange b _ (hrange i hi).1 (hrange i hi).2
  have hr := read_voltage_inRange b analogRead b.mVmin b.mVmax b.mVmax_lt hs
  have hle := Flt.inRange_le hr
  have hlt := b.mVmax_lt
  refine ⟨rfl, ?_, ?_, ?_, ?_, ?_, read_voltage_inRange b analogRead, ?_⟩
  · intro other h
    unfold read_voltage
    simp only [volt_avg_len]
    rw [read_voltage_loop_congr b other analogRead 1000 h]
  · exact (Flt.le_of_inRange hr).1 (Flt.inRange_ofInt binary32_wide (by omega))
  · exact (Flt.le_of_inRange hr).2 (Flt.inRange_ofInt binary32_wide (by omega))
  · intro h
    apply read_voltage_exact b analogRead b.mVmin (by omega)
    intro i hi
    rw [h i hi, sample_mV_zero]
  · intro h12 h
    apply read_voltage_exact b analogRead b.mVmax hlt
    intro i hi
    rw [h i hi, sample_mV_full b h12]
  · intro v hv h
    exact read_voltage_exact b analogRead v hv h

/-- Witness of `read_voltage_range`: on the MKR WiFi 1010 with all 1000 raw samples at full
scale (4095) the result is exactly 3300 mV. -/
theorem read_voltage_range_witness :
    read_voltage .ARDUINO_SAMD_MKRWIFI1010 (fun _ => 4095) = intToFloat 3300 ∧
    Flt.le (intToFloat 0) (read_voltage .ARDUINO_SAMD_MKRWIFI1010 (fun _ => 4095)) = true :=
  have h := read_voltage_range .ARDUINO_SAMD_MKRWIFI1010 (fun _ => 4095)
    (fun _ _ => (by decide : (0 : Int) ≤ 4095 ∧ (4095 : Int) < 2 ^ 12))
  ⟨h.2.2.2.2.2.1 rfl (fun _ _ => rfl), h.2.2.1⟩

/-! ## The status LED: `setLedColorForCode` and the two fade functions -/

theorem totalDelay_append (xs ys : List LedEvent) :
    totalDelay (xs ++ ys) = totalDelay xs + totalDelay ys := by
  induction xs with
  | nil => simp [totalDelay]
  | cons e es ih =>
    cases e with
    | write w => simpa [totalDelay] using ih
    | delay ms => simp [totalDelay, ih, Nat.add_assoc]

theorem totalDelay_map_write (ws : List AnalogWrite) :
    totalDelay (ws.map LedEvent.write) = 0 := by
  induction ws with
  | nil => rfl
  | cons w ws ih => simpa [totalDelay] using ih

/-- A loop whose body is some LED writes followed by `delay(10)` spends 10 ms per iteration in
`delay`. -/
theorem totalDelay_steps {α : Type} (f : α → List AnalogWrite) (is : List α) :
    totalDelay (is.flatMap fun i => (f i).map LedEvent.write ++ [LedEvent.delay 10])
      = 10 * is.length := by
  induction is with
  | nil => rfl
  | cons i is ih =>
    rw [List.flatMap_cons, totalDelay_append, totalDelay_append, totalDelay_map_write, ih]
    simp [totalDelay]
    ring

theorem fadeNumSteps_mul_ten (n : Nat) : fadeNumSteps (10 * ((n : Int) + 1)) = (n : Int) + 1 := by
  unfold fadeNumSteps
  have h : Int.tdiv (10 * ((n : Int) + 1)) 10 = (n : Int) + 1 :=
    Int.mul_tdiv_cancel_left _ (by decide)
  simp only [h]
  rw [if_neg (by omega)]

/-- The time `fadeOnBoardLedColor` spends in `delay`: 10 ms for each of the `numSteps` steps of
the fade-in and again for each of the `numSteps` steps of the fade-out. -/
theorem fadeOnBoardLedColor_totalDelay (red green blue intensity fadeDuration : Int) :
    totalDelay (fadeOnBoardLedColor red green blue intensity fadeDuration)
      = 2 * (10 * (fadeNumSteps fadeDuration).toNat) := by
  simp only [fadeOnBoardLedColor]
  rw [totalDelay_append, totalDelay_append, totalDelay_map_write, totalDelay_steps,
    totalDelay_steps]
  simp
  ring

/-- The time `fadeOnBoardLedColorForCode` spends in `delay`. -/
theorem fadeOnBoardLedColorForCode_totalDelay (colorCode : List Int)
    (intensity fadeDuration : Int) :
    totalDelay (fadeOnBoardLedColorForCode colorCode intensity fadeDuration)
      = 2 * (10 * (fadeNumSteps fadeDuration).toNat) := by
  simp only [fadeOnBoardLedColorForCode]
  rw [totalDelay_append, totalDelay_append, totalDelay_map_write, totalDelay_steps,
    totalDelay_steps]
  simp
  ring

/-- The events of a fade begin and end with an LED write: the first step of the fade-in begins
with the writes of `f 0` and the function ends with the writes of `last`.  The `delay` calls
all lie between the two. -/
theorem fade_shape (f : Int → List AnalogWrite) (n : Nat) (out : List LedEvent)
    (last : List AnalogWrite) (hf : ∃ a b c, f 0 = [a, b, c]) (hl : ∃ a b c, last = [a, b, c]) :
    ∃ w es w1,
      (((List.range (n + 1)).map Int.ofNat).flatMap fun i =>
          (f i).map LedEvent.write ++ [LedEvent.delay 10]) ++ out ++ last.map LedEvent.write
        = LedEvent.write w :: es ++ [LedEvent.write w1] ∧
      totalDelay es =
        totalDelay ((((List.range (n + 1)).map Int.ofNat).flatMap fun i =>
          (f i).map LedEvent.write ++ [LedEvent.delay 10]) ++ out ++ last.map LedEvent.write) := by
  obtain ⟨a, b, c, hf⟩ := hf
  obtain ⟨x, y, z, hl⟩ := hl
  have hr : (List.range (n + 1)).map Int.ofNat
      = 0 :: ((List.range n).map Nat.succ).map Int.ofNat := by
    rw [List.range_succ_eq_map]
    rfl
  rw [hr, List.flatMap_cons, hf, hl]
  refine ⟨a, [LedEvent.write b, LedEvent.write c, LedEvent.delay 10]
    ++ ((((List.range n).map Nat.succ).map Int.ofNat).flatMap fun i =>
          (f i).map LedEvent.write ++ [LedEvent.delay 10])
    ++ out ++ [LedEvent.write x, LedEvent.write y], z, ?_, ?_⟩
  · simp
  · simp [totalDelay, totalDelay_append]

/-- Claim C12 (the code differs): with `fadeDuration` a positive multiple of 10, the `delay(10)`
calls of `fadeOnBoardLedColor` and of `fadeOnBoardLedColorForCode`, all of which lie between
the first and the last LED write, add up to twice `fadeDuration`, not to `fadeDuration`:
`fadeDuration / 10` steps of 10 ms fade in and as many fade out.  For 1000 ms the functions
wait 2000 ms. -/
theorem fade_delay_is_twice_fadeDuration :
    totalDelay (fadeOnBoardLedColor 255 200 0 255 1000) = 2000 ∧
    totalDelay (fadeOnBoardLedColorForCode [255, 200, 0] 255 1000) = 2000 ∧
    ∀ (n : Nat) (red green blue intensity : Int) (colorCode : List Int),
      (∃ w es w1,
        fadeOnBoardLedColor red green blue intensity (10 * ((n : Int) + 1))
          = LedEvent.write w :: es ++ [LedEvent.write w1] ∧
        (totalDelay es : Int) = 2 * (10 * ((n : Int) + 1))) ∧
      (∃ w es w1,
        fadeOnBoardLedColorForCode colorCode intensity (10 * ((n : Int) + 1))
          = LedEvent.write w :: es ++ [LedEvent.write w1] ∧
        (totalDelay es : Int) = 2 * (10 * ((n : Int) + 1))) := by
  have hs : fadeNumSteps 1000 = 100 := by decide
  have ht : ∀ n : Nat, ((n : Int) + 1).toNat = n + 1 := fun n => by omega
  have hA : ∀ r g b i, ∃ x y z, setOnBoardLEDColor r g b i = [x, y, z] :=
    fun _ _ _ _ => ⟨_, _, _, rfl⟩
  have hB : ∀ cc i, ∃ x y z, setLedColorForCode cc i = [x, y, z] := fun _ _ => ⟨_, _, _, rfl⟩
  refine ⟨?_, ?_, fun n red green blue intensity colorCode => ⟨?_, ?_⟩⟩
  · rw [fadeOnBoardLedColor_totalDelay, hs]
    rfl
  · rw [fadeOnBoardLedColorForCode_totalDelay, hs]
    rfl
  · have htot := fadeOnBoardLedColor_totalDelay red green blue intensity (10 * ((n : Int) + 1))
    rw [fadeNumSteps_mul_ten, ht] at htot
    simp only [fadeOnBoardLedColor, fadeNumSteps_mul_ten, ht] at htot ⊢
    generalize (intToFloat (constrain red LED_INTENSITY_MIN LED_INTENSITY_MAX
      - LED_INTENSITY_MIN) / intToFloat ((n : Int) + 1) : F32) = stepR at htot ⊢
    generalize (intToFloat (constrain green LED_INTENSITY_MIN LED_INTENSITY_MAX
      - LED_INTENSITY_MIN) / intToFloat ((n : Int) + 1) : F32) = stepG at htot ⊢
    generalize (intToFloat (constrain blue LED_INTENSITY_MIN LED_INTENSITY_MAX
      - LED_INTENSITY_MIN) / intToFloat ((n : Int) + 1) : F32) = stepB at htot ⊢
    generalize (intToFloat (constrain intensity LED_INTENSITY_MIN LED_INTENSITY_MAX
      - LED_INTENSITY_MIN) / intToFloat ((n : Int) + 1) : F32) = stepI at htot ⊢
    obtain ⟨w, es, w1, h1, h2⟩ := fade_shape
      (fun i => setOnBoardLEDColor (Flt.toInt (intToFloat i * stepR))
        (Flt.toInt (intToFloat i * stepG)) (Flt.toInt (intToFloat i * stepB))
        (Flt.toInt (intToFloat i * stepI))) n
      ((List.map (fun k => Int.ofNat k + 1) (List.range (n + 1)).reverse).flatMap fun i =>
        List.map LedEvent.write
          (setOnBoardLEDColor (Flt.toInt (intToFloat (i - 1) * stepR))
            (Flt.toInt (intToFloat (i - 1) * stepG)) (Flt.toInt (intToFloat (i - 1) * stepB))
            (Flt.toInt (intToFloat (i - 1) * stepI))) ++ [LedEvent.delay 10])
      (setOnBoardLEDColor (constrain red LED_INTENSITY_MIN LED_INTENSITY_MAX)
        (constrain green LED_INTENSITY_MIN LED_INTENSITY_MAX)
        (constrain blue LED_INTENSITY_MIN LED_INTENSITY_MAX)
        (constrain intensity LED_INTENSITY_MIN LED_INTENSITY_MAX))
      (hA _ _ _ _) (hA _ _ _ _)
    refine ⟨w, es, w1, h1, ?_⟩
    rw [h2, htot]
    push_cast
    ring
  · have htot := fadeOnBoardLedColorForCode_totalDelay colorCode intensity (10 * ((n : Int) + 1))
    rw [fadeNumSteps_mul_ten, ht] at htot
    simp only [fadeOnBoardLedColorForCode, fadeNumSteps_mul_ten, ht] at htot ⊢
    generalize (intToFloat (constrain intensity LED_INTENSITY_MIN LED_INTENSITY_MAX
      - LED_INTENSITY_MIN) / intToFloat ((n : Int) + 1) : F32) = stepI at htot ⊢
    obtain ⟨w, es, w1, h1, h2⟩ := fade_shape
      (fun i => setLedColorForCode colorCode (Flt.toInt (intToFloat i * stepI))) n
      ((List.map (fun k => Int.ofNat k + 1) (List.range (n + 1)).reverse).flatMap fun i =>
        List.map LedEvent.write
          (setLedColorForCode colorCode (Flt.toInt (intToFloat (i - 1) * stepI)))
          ++ [LedEvent.delay 10])
      (setLedColorForCode colorCode (constrain intensity LED_INTENSITY_MIN LED_INTENSITY_MAX))
      (hB _ _) (hB _ _)
    refine ⟨w, es, w1, h1, ?_⟩
    rw [h2, htot]
    push_cast
    ring

theorem Advancing.le {clock : Nat → Nat} (h : Advancing clock) {i j : Nat} (hij : i ≤ j) :
    clock i ≤ clock j := by
  induction hij with
  | refl => exact le_rfl
  | step _ ih => exact le_trans ih (h.mono _)

/-- While less than `D ≤ 2 ^ 31` ms have passed since `p`, a step of at most `2 ^ 31` ms of the
clock adds to the `unsigned long` difference without wrapping. -/
theorem ulSub_step (a s p D : Nat) (hs : s ≤ 2 ^ 31) (hD : D ≤ 2 ^ 31)
    (hr : ulSub (a % ULONG_SIZE) p < D) :
    ulSub ((a + s) % ULONG_SIZE) p = ulSub (a % ULONG_SIZE) p + s := by
  unfold ulSub ULONG_SIZE at *
  norm_num at *
  omega

/-- With an advancing clock the `unsigned long` difference to `prev` reaches any `D ≤ 2 ^ 31`. -/
theorem exists_elapsed {clock : Nat → Nat} (h : Advancing clock) (k prev D : Nat)
    (hD : D ≤ 2 ^ 31) : ∃ m, D ≤ ulSub (millis clock (k + m)) prev := by
  by_contra hno
  push_neg at hno
  have key : ∀ i, clock (k + i) + ulSub (millis clock k) prev
      = clock k + ulSub (millis clock (k + i)) prev := by
    intro i
    induction i with
    | zero => rfl
    | succ i ih =>
      have hs := h.step (k + i)
      have hm := h.mono (k + i)
      have h1 := ulSub_step (clock (k + i)) (clock (k + i + 1) - clock (k + i)) prev D
        (by omega) hD (hno i)
      rw [show clock (k + i) + (clock (k + i + 1) - clock (k + i)) = clock (k + i + 1) by
        omega] at h1
      simp only [millis] at ih ⊢
      rw [← Nat.add_assoc, h1]
      omega
  obtain ⟨j, hj⟩ := h.unbounded (clock k + D)
  rcases le_or_lt k j with hkj | hkj
  · obtain ⟨i, rfl⟩ := Nat.exists_eq_add_of_le hkj
    have h1 := key i
    have h2 := hno i
    omega
  · have h1 := h.le hkj.le
    have h2 := hno 0
    omega

/-- The first call of `millis` from call `k` on at which `D` ms have passed since `prev`. -/
theorem first_elapsed {clock : Nat → Nat} (h : Advancing clock) (k prev D : Nat)
    (hD : D ≤ 2 ^ 31) :
    ∃ m, D ≤ ulSub (millis clock (k + m)) prev ∧
      ∀ i, i < m → ulSub (millis clock (k + i)) prev < D := by
  classical
  have hex := exists_elapsed h k prev D hD
  exact ⟨Nat.find hex, Nat.find_spec hex, fun i hi => lt_of_not_ge (Nat.find_min hex hi)⟩

theorem toUL_le (d : Int) (h0 : 0 ≤ d) (h1 : d ≤ INT_MAX) : toUL d ≤ 2 ^ 31 := by
  unfold toUL ULONG_SIZE
  unfold INT_MAX at h1
  norm_num at *
  omega

theorem nextDelay_range (s : List Char) (i : Nat) (d e : Int)
    (hd : 0 ≤ d ∧ d ≤ INT_MAX) (he : 0 ≤ e ∧ e ≤ INT_MAX) :
    0 ≤ nextDelay s i d e ∧ nextDelay s i d e ≤ INT_MAX := by
  unfold nextDelay
  simp only
  split_ifs <;> assumption

/-- While the delay has not passed the print loop only calls `millis` again. -/
theorem printLoop_spin (clock : Nat → Nat) (s : List Char) (e : Int) (prev idx : Nat) (d : Int)
    (hidx : idx < s.length) (m : Nat) :
    ∀ k fuel, (∀ i, i < m → ulSub (millis clock (k + i)) prev < toUL d) →
      printLoop clock s e (fuel + m) k prev idx d = printLoop clock s e fuel (k + m) prev idx d := by
  induction m with
  | zero => intro k fuel _; rfl
  | succ m ih =>
    intro k fuel hw
    have h0 : ¬ ulSub (millis clock k) prev ≥ toUL d := by
      have := hw 0 (Nat.succ_pos m)
      simpa using this
    rw [show fuel + (m + 1) = (fuel + m) + 1 by omega]
    rw [printLoop, if_pos hidx]
    simp only [h0, if_false]
    rw [ih (k + 1) fuel (fun i hi => by
      have := hw (i + 1) (by omega)
      rwa [show k + 1 + i = k + (i + 1) by omega])]
    rw [show k + 1 + m = k + (m + 1) by omega]

/-- From any state the print loop ends, given enough fuel, and has printed the characters from
`idx` on, one `lcd.print` for each, in order. -/
theorem printLoop_prints {clock : Nat → Nat} (h : Advancing clock) (s : List Char) (e : Int)
    (he : 0 ≤ e ∧ e ≤ INT_MAX) (r : Nat) :
    ∀ idx k prev d, s.length - idx = r → idx ≤ s.length → 0 ≤ d ∧ d ≤ INT_MAX →
      ∃ n k1, ∀ fuel, n ≤ fuel →
        printLoop clock s e fuel k prev idx d = some ((s.drop idx).map LcdOp.print, k1) := by
  induction r with
  | zero =>
    intro idx k prev d hr hidx _
    have hn : ¬ idx < s.length := by omega
    refine ⟨0, k, fun fuel _ => ?_⟩
    have hdrop : s.drop idx = [] := List.drop_eq_nil_of_le (by omega)
    cases fuel with
    | zero => simp [printLoop, hn, hdrop]
    | succ fuel => simp [printLoop, hn, hdrop]
  | succ r ih =>
    intro idx k prev d hr hidx hd
    have hlt : idx < s.length := by omega
    obtain ⟨m, hm, hw⟩ := first_elapsed h k prev (toUL d) (toUL_le d hd.1 hd.2)
    obtain ⟨n, k1, hn⟩ := ih (idx + 1) (k + m + 1) (millis clock (k + m))
      (nextDelay s (idx + 1) d e) (by omega) (by omega) (nextDelay_range s (idx + 1) d e hd he)
    refine ⟨n + 1 + m, k1, fun fuel hfuel => ?_⟩
    obtain ⟨f, rfl⟩ : ∃ f, fuel = (f + 1) + m := ⟨fuel - m - 1, by omega⟩
    rw [printLoop_spin clock s e prev idx d hlt m k (f + 1) hw]
    rw [printLoop, if_pos hlt]
    simp only [ge_iff_le, hm, if_true]
    rw [hn f (by omega)]
    have hdrop : s.drop idx = s[idx] :: s.drop (idx + 1) := List.drop_eq_getElem_cons hlt
    have hc : charAt s idx = s[idx] := by
      unfold charAt
      simp [List.getD_eq_getElem?_getD, List.getElem?_eq_getElem hlt]
    rw [hdrop, hc, List.map_cons]

/-- The wait before `lcd.clear()` ends at the first call of `millis` at which the delay has
passed. -/
theorem waitLoop_ends (clock : Nat → Nat) (c : Nat) (d : Int) (m : Nat) :
    ∀ k fuel, m ≤ fuel → toUL d ≤ ulSub (millis clock (k + m)) c →
      (∀ i, i < m → ulSub (millis clock (k + i)) c < toUL d) →
      waitLoop clock c d fuel k = some (k + m + 1) := by
  induction m with
  | zero =>
    intro k fuel _ hm _
    have h0 : ¬ ulSub (millis clock k) c < toUL d := by simpa using hm
    cases fuel with
    | zero => simp [waitLoop, h0]
    | succ fuel => simp [waitLoop, h0]
  | succ m ih =>
    intro k fuel hfuel hm hw
    obtain ⟨f, rfl⟩ : ∃ f, fuel = f + 1 := ⟨fuel - 1, by omega⟩
    have h0 := hw 0 (Nat.succ_pos m)
    rw [waitLoop, if_pos (by simpa using h0)]
    rw [ih (k + 1) f (by omega) (by rwa [show k + 1 + m = k + (m + 1) by omega])
      (fun i hi => by
        have := hw (i + 1) (by omega)
        rwa [show k + 1 + i = k + (i + 1) by omega])]
    congr 1
    omega

/-- Claim C11: with a clock that keeps advancing (it never goes back, it passes every time, and
two calls of `millis` in a row are at most `2 ^ 31` ms apart) and delay parameters that are
not negative, `lcdPrettyPrint` runs to completion: from some number of loop iterations on, the
fuel is enough.  The operations it performs on the display are then one `lcd.print` for each
character of the text, in the order of the text, followed by one `lcd.clear` exactly when
`clearDisplay` is true; for the empty text that is nothing, or the `lcd.clear` alone. -/
theorem lcdPrettyPrint_ops (clock : Nat → Nat) (dataPrintout : List Char) (clearDisplay : Bool)
    (delayBeforeClear delayTimeBetweenChar delayTimeEndChar : Int)
    (hclock : Advancing clock)
    (hc : 0 ≤ delayBeforeClear ∧ delayBeforeClear ≤ INT_MAX)
    (hb : 0 ≤ delayTimeBetweenChar ∧ delayTimeBetweenChar ≤ INT_MAX)
    (he : 0 ≤ delayTimeEndChar ∧ delayTimeEndChar ≤ INT_MAX) :
    ∃ n, ∀ fuel, n ≤ fuel →
      lcdPrettyPrint clock dataPrintout clearDisplay delayBeforeClear delayTimeBetweenChar
          delayTimeEndChar fuel
        = some (dataPrintout.map LcdOp.print ++ if clearDisplay then [LcdOp.clear] else []) := by
  obtain ⟨n, k, hn⟩ := printLoop_prints hclock dataPrintout delayTimeEndChar he
    dataPrintout.length 0 0 0 delayTimeBetweenChar rfl (Nat.zero_le _) hb
  cases clearDisplay with
  | false =>
    refine ⟨n, fun fuel hfuel => ?_⟩
    simp [lcdPrettyPrint, hn fuel hfuel]
  | true =>
    obtain ⟨m, hm, hw⟩ := first_elapsed hclock (k + 1) (millis clock k) (toUL delayBeforeClear)
      (toUL_le _ hc.1 hc.2)
    refine ⟨max n m, fun fuel hfuel => ?_⟩
    have hwait := waitLoop_ends clock (millis clock k) delayBeforeClear m (k + 1) fuel
      (le_trans (le_max_right n m) hfuel) hm hw
    simp [lcdPrettyPrint, hn fuel (le_trans (le_max_left n m) hfuel), hwait]

/-- The clock of a run in which every call of `millis` comes 20 ms after the one before, the
first one 296 ms before the `unsigned long` starts again from 0. -/
theorem advancing_example : Advancing (fun k => 4294967000 + 20 * k) :=
  ⟨fun k => by omega, fun k => by norm_num; omega, fun t => ⟨t, by omega⟩⟩

/-- Claim C11 at the text "Wait..." with the clear and the default delays, on a clock that wraps
during the run: the operations are the seven prints and the clear, and 100 iterations of each
loop are enough for them. -/
theorem lcdPrettyPrint_ops_witness :
    Advancing (fun k => 4294967000 + 20 * k) ∧
    (∃ n, ∀ fuel, n ≤ fuel →
      lcdPrettyPrint (fun k => 4294967000 + 20 * k) "Wait...".toList true 1500 50 250 fuel
        = some ("Wait...".toList.map LcdOp.print ++ if true then [LcdOp.clear] else [])) ∧
    lcdPrettyPrint (fun k => 4294967000 + 20 * k) "Wait...".toList true 1500 50 250 100
      = some [LcdOp.print 'W', LcdOp.print 'a', LcdOp.print 'i', LcdOp.print 't',
          LcdOp.print '.', LcdOp.print '.', LcdOp.print '.', LcdOp.clear] :=
  ⟨advancing_example,
    lcdPrettyPrint_ops _ _ _ _ _ _ advancing_example (by decide) (by decide) (by decide),
    by decide!⟩

end Firmware
